import Mathlib

set_option maxRecDepth 4000

/-!
Shallow embedding of the transactional columnar table storage core
(`src/storage/data_table.cpp`): data model, write paths (Append, Delete,
Update), constraint verification, index coordination and the scan driver,
together with theorems about the behaviour of these operations.
-/

namespace DuckDB

/-- Transaction identifiers at or above this constant denote in-progress
(uncommitted) transactions; smaller values are commit timestamps.
Modelled from the spec: the constant itself lives in the transaction
headers, which are not part of the sources; only the threshold semantics
`version_number >= TRANSACTION_ID_START` is used by the core. -/
def TRANSACTION_ID_START : Nat := 2 ^ 62

/-- Error taxonomy of the core, mirroring the exception classes thrown by
`data_table.cpp` (ConstraintException, TransactionException,
CatalogException, NotImplementedException) plus `internalAssert` for
`assert(...)` failures (debug semantics). -/
inductive Err where
  | constraint (msg : String)
  | transactionConflict (msg : String)
  | catalog (msg : String)
  | notImplemented (msg : String)
  | internalAssert (msg : String)
deriving DecidableEq, Repr

/-- Whether an error is a constraint violation. -/
def Err.isConstraint : Err → Bool
  | .constraint _ => true
  | _ => false

/-- Whether an error is a transaction conflict. -/
def Err.isTransactionConflict : Err → Bool
  | .transactionConflict _ => true
  | _ => false

/-- Whether an error is a not-implemented rejection. -/
def Err.isNotImplemented : Err → Bool
  | .notImplemented _ => true
  | _ => false

/-- A data chunk: column-major values (one list of optional integers per
column, `none` denoting SQL NULL) plus the row count stored in
`data[0].count` in the source (`DataChunk::size()`). -/
structure DataChunkM where
  columns : List (List (Option Int))
  count : Nat
deriving DecidableEq, Repr

/-- `DataChunk::size()`. -/
def DataChunkM.size (c : DataChunkM) : Nat := c.count

/-- `VectorOperations::HasNull`. Modelled from the spec: fail a NOT NULL
constraint if the referenced column vector contains any null. -/
def VectorOperations.HasNull (v : List (Option Int)) : Bool :=
  v.any (fun x => x.isNone)

/-- `VectorOperations::Unique`. Modelled from the spec: report whether the
referenced column within the input chunk is free of duplicate values. -/
def VectorOperations.Unique (v : List (Option Int)) : Bool :=
  v.dedup == v

/-- A bound table constraint (`ConstraintType` with its bound payload).
CHECK constraints carry the external expression evaluator as a black-box
function from the evaluated chunk to an integer result vector or an
evaluator error, per the spec's external-interface contract. -/
inductive Constraint where
  | notNull (index : Nat) (colName : String)
  | check (eval : DataChunkM → Except String (List (Option Int))) (boundColumns : List Nat)
  | unique (keys : List Nat)
  | foreignKey

/-- `VerifyNotNullConstraint`: throw a ConstraintException when the column
vector contains a null. -/
def VerifyNotNullConstraint (tableName : String) (v : List (Option Int)) (colName : String) :
    Except Err Unit :=
  if VectorOperations.HasNull v then
    .error (.constraint ("NOT NULL constraint failed: " ++ tableName ++ "." ++ colName))
  else
    .ok ()

/-- The result-inspection loop of `VerifyCheckConstraint`: throw a
ConstraintException at the first entry of the integer result vector that
is non-null and equal to zero. -/
def checkZeroLoop (tableName : String) : List (Option Int) → Except Err Unit
  | [] => .ok ()
  | v :: rest =>
    match v with
    | some x =>
      if x = 0 then .error (.constraint ("CHECK constraint failed: " ++ tableName))
      else checkZeroLoop tableName rest
    | none => checkZeroLoop tableName rest

/-- `VerifyCheckConstraint`: run the external expression evaluator; wrap an
evaluator error inside a ConstraintException; otherwise fail at any
non-null zero entry of the integer result vector. -/
def VerifyCheckConstraint (tableName : String)
    (execResult : Except String (List (Option Int))) : Except Err Unit :=
  match execResult with
  | .error e =>
    .error (.constraint ("CHECK constraint failed: " ++ tableName ++ " (Error: " ++ e ++ ")"))
  | .ok result => checkZeroLoop tableName result

/-- The per-key loop of `VerifyUniqueConstraint`: fail when a referenced
column contains duplicate values. -/
def uniqueKeyLoop (chunk : DataChunkM) : List Nat → Except Err Unit
  | [] => .ok ()
  | key :: rest =>
    if VectorOperations.Unique (chunk.columns.getD key []) then uniqueKeyLoop chunk rest
    else .error (.constraint "duplicate key value violates primary key or unique constraint")

/-- `VerifyUniqueConstraint`: `assert(keys.size() == 1)` (modelled with its
debug semantics as an internal assertion failure), then check each key
column of the input chunk for duplicates. -/
def VerifyUniqueConstraint (keys : List Nat) (chunk : DataChunkM) : Except Err Unit :=
  if keys.length ≠ 1 then .error (.internalAssert "keys.size() == 1")
  else uniqueKeyLoop chunk keys

/-- `DataTable::VerifyAppendConstraints`: check every bound constraint
against the full input chunk; FOREIGN KEY falls into the
`NotImplementedException` arm of the switch. -/
def VerifyAppendConstraints (tableName : String) :
    List Constraint → DataChunkM → Except Err Unit
  | [], _ => .ok ()
  | c :: rest, chunk =>
    match c with
    | .notNull index colName =>
      match VerifyNotNullConstraint tableName (chunk.columns.getD index []) colName with
      | .error e => .error e
      | .ok _ => VerifyAppendConstraints tableName rest chunk
    | .check eval _ =>
      match VerifyCheckConstraint tableName (eval chunk) with
      | .error e => .error e
      | .ok _ => VerifyAppendConstraints tableName rest chunk
    | .unique keys =>
      match VerifyUniqueConstraint keys chunk with
      | .error e => .error e
      | .ok _ => VerifyAppendConstraints tableName rest chunk
    | .foreignKey => .error (.notImplemented "Constraint type not implemented!")

/-- `CreateMockChunk` (unconditional overload): build a chunk over the full
catalog column list that references each update column at its catalog
position `column_ids[i]`, with the mock's size taken from the update
chunk. Columns not present in the update are left uninitialized (empty). -/
def CreateMockChunk (tableColumnCount : Nat) (column_ids : List Nat) (chunk : DataChunkM) :
    DataChunkM :=
  { columns := (List.range tableColumnCount).map (fun cat =>
      match List.indexOf? cat column_ids with
      | some j => chunk.columns.getD j []
      | none => []),
    count := chunk.size }

/-- `CreateMockChunk` (guarded overload): count how many of the desired
columns appear in the UPDATE's column list; skip the constraint when none
do, reject with `NotImplementedException` when only some do, and build the
mock chunk when all do. -/
def CreateMockChunkChecked (tableColumnCount : Nat) (column_ids : List Nat)
    (desired : List Nat) (chunk : DataChunkM) : Except Err (Option DataChunkM) :=
  let found := (column_ids.filter (fun c => desired.contains c)).length
  if found = 0 then .ok none
  else if found ≠ desired.length then
    .error (.notImplemented
      "Not all columns required for the CHECK constraint are present in the UPDATED chunk!")
  else .ok (some (CreateMockChunk tableColumnCount column_ids chunk))

/-- The NOT NULL arm of `VerifyUpdateConstraints`: scan `column_ids` for the
constrained column and, at the first match, check the corresponding update
vector. -/
def updateNotNullScan (tableName : String) (notNullIndex : Nat) (colName : String)
    (chunk : DataChunkM) : List Nat → Nat → Except Err Unit
  | [], _ => .ok ()
  | cid :: rest, i =>
    if cid = notNullIndex then
      VerifyNotNullConstraint tableName (chunk.columns.getD i []) colName
    else updateNotNullScan tableName notNullIndex colName chunk rest (i + 1)

/-- `DataTable::VerifyUpdateConstraints`: check only the constraints touched
by the updated column set; FOREIGN KEY is silently skipped. -/
def VerifyUpdateConstraints (tableName : String) (tableColumnCount : Nat) :
    List Constraint → DataChunkM → List Nat → Except Err Unit
  | [], _, _ => .ok ()
  | c :: rest, chunk, column_ids =>
    match c with
    | .notNull index colName =>
      match updateNotNullScan tableName index colName chunk column_ids 0 with
      | .error e => .error e
      | .ok _ => VerifyUpdateConstraints tableName tableColumnCount rest chunk column_ids
    | .check eval boundColumns =>
      match CreateMockChunkChecked tableColumnCount column_ids boundColumns chunk with
      | .error e => .error e
      | .ok none => VerifyUpdateConstraints tableName tableColumnCount rest chunk column_ids
      | .ok (some mock) =>
        match VerifyCheckConstraint tableName (eval mock) with
        | .error e => .error e
        | .ok _ => VerifyUpdateConstraints tableName tableColumnCount rest chunk column_ids
    | .unique keys =>
      match CreateMockChunkChecked tableColumnCount column_ids keys chunk with
      | .error e => .error e
      | .ok none => VerifyUpdateConstraints tableName tableColumnCount rest chunk column_ids
      | .ok (some mock) =>
        match VerifyUniqueConstraint keys mock with
        | .error e => .error e
        | .ok _ => VerifyUpdateConstraints tableName tableColumnCount rest chunk column_ids
    | .foreignKey => VerifyUpdateConstraints tableName tableColumnCount rest chunk column_ids

/-- An index capability, abstracted per the spec's external-interface
contract: whether its `Append` succeeds for the chunk at hand, and whether
`IndexIsUpdated(column_ids)` holds for the update at hand. -/
structure IndexM where
  appendOk : Bool
  isUpdated : Bool
deriving DecidableEq, Repr

/-- A call made to an index capability, with the chunk and row-identifier
vector that were passed. -/
inductive IndexEvent where
  | appendEv (i : Nat) (chunk : DataChunkM) (rows : List Nat)
  | deleteEv (i : Nat) (chunk : DataChunkM) (rows : List Nat)
deriving DecidableEq, Repr

/-- Whether an index event is a `Delete` call. -/
def IndexEvent.isDelete : IndexEvent → Bool
  | .deleteEv _ _ _ => true
  | _ => false

/-- `VectorOperations::GenerateSequence`: the row-identifier vector
`[row_start, row_start + n)`. -/
def GenerateSequence (row_start n : Nat) : List Nat :=
  (List.range n).map (fun k => row_start + k)

/-- The append loop of `DataTable::AppendToIndexes`: call `Append` on each
index in order, recording the calls, and stop at the first index whose
`Append` returns false. -/
def appendIndexLoop (chunk : DataChunkM) (rows : List Nat) :
    List IndexM → Nat → List IndexEvent × Option Nat
  | [], _ => ([], none)
  | ix :: rest, i =>
    if ix.appendOk then
      let r := appendIndexLoop chunk rows rest (i + 1)
      (IndexEvent.appendEv i chunk rows :: r.1, r.2)
    else ([IndexEvent.appendEv i chunk rows], some i)

/-- `DataTable::AppendToIndexes`: append the chunk to every index; on the
first failure, delete from every strictly earlier index and throw a
ConstraintException. Returns the trace of index calls and the error. -/
def DataTable.AppendToIndexes (indexes : List IndexM) (chunk : DataChunkM) (row_start : Nat) :
    List IndexEvent × Option Err :=
  if indexes.length = 0 then ([], none)
  else
    let rows := GenerateSequence row_start chunk.size
    let r := appendIndexLoop chunk rows indexes 0
    match r.2 with
    | none => (r.1, none)
    | some failed_index =>
      (r.1 ++ (List.range failed_index).map (fun j => IndexEvent.deleteEv j chunk rows),
       some (.constraint "PRIMARY KEY or UNIQUE constraint violated: duplicated key"))

/-- The append loop of `DataTable::UpdateIndexes`: skip indexes not affected
by the update, call `Append` on the rest in order, and stop at the first
affected index whose `Append` returns false. -/
def updateIndexLoop (mock : DataChunkM) (rows : List Nat) :
    List IndexM → Nat → List IndexEvent × Option Nat
  | [], _ => ([], none)
  | ix :: rest, i =>
    if !ix.isUpdated then updateIndexLoop mock rows rest (i + 1)
    else if ix.appendOk then
      let r := updateIndexLoop mock rows rest (i + 1)
      (IndexEvent.appendEv i mock rows :: r.1, r.2)
    else ([IndexEvent.appendEv i mock rows], some i)

/-- `DataTable::UpdateIndexes`: build the mock chunk placing update columns
at their catalog positions, append it to every affected index, and on the
first failure delete from every strictly earlier affected index and throw
a ConstraintException. Returns the trace of index calls and the error. -/
def DataTable.UpdateIndexes (tableColumnCount : Nat) (indexes : List IndexM)
    (column_ids : List Nat) (updates : DataChunkM) (row_ids : List Nat) :
    List IndexEvent × Option Err :=
  if indexes.length = 0 then ([], none)
  else
    let mock := CreateMockChunk tableColumnCount column_ids updates
    let r := updateIndexLoop mock row_ids indexes 0
    match r.2 with
    | none => (r.1, none)
    | some failed_index =>
      (r.1 ++ ((List.range failed_index).filter
          (fun j => (indexes.getD j ⟨true, true⟩).isUpdated)).map
          (fun j => IndexEvent.deleteEv j mock row_ids),
       some (.constraint "PRIMARY KEY or UNIQUE constraint violated: duplicated key"))

/-- Head of a row's version chain. `version_number` at or above
`TRANSACTION_ID_START` marks an uncommitted version owned by that
transaction; smaller values are commit timestamps. -/
structure VersionInfo where
  version_number : Nat
deriving DecidableEq, Repr

/-- Kinds of undo records pushed by the write paths. -/
inductive UndoFlags where
  | INSERT_TUPLE
  | DELETE_TUPLE
  | UPDATE_TUPLE
deriving DecidableEq, Repr

/-- One record in the active transaction's undo buffer, keyed by the owning
chunk's start row and the row offset inside it. -/
structure UndoEntry where
  flag : UndoFlags
  chunkStart : Nat
  offset : Nat
deriving DecidableEq, Repr

/-- A VersionChunk: a horizontal slab of rows starting at row id `start`,
with per-row version-info slots and a deleted bitmap (indexed by row
offset inside the chunk). -/
structure VersionChunkM where
  start : Nat
  count : Nat
  versions : List (Option VersionInfo)
  deleted : List Bool
deriving DecidableEq, Repr

/-- `VersionChunk::GetVersionInfo`: head of the version chain of the row at
the given offset, or null. -/
def VersionChunkM.GetVersionInfo (c : VersionChunkM) (offset : Nat) : Option VersionInfo :=
  c.versions.getD offset none

/-- `VersionChunk::SetDeleted`: set the deleted bit of the row at the given
offset. -/
def VersionChunkM.SetDeleted (c : VersionChunkM) (offset : Nat) : VersionChunkM :=
  { c with deleted := c.deleted.set offset true }

/-- `VersionChunk::PushTuple`. Modelled from the spec: copy the current
tuple into the transaction's undo buffer and prepend a version node owned
by the transaction to the chunk slot at the given offset. -/
def VersionChunkM.PushTuple (c : VersionChunkM) (undo : List UndoEntry) (txnId : Nat)
    (flag : UndoFlags) (offset : Nat) : VersionChunkM × List UndoEntry :=
  ({ c with versions := c.versions.set offset (some ⟨txnId⟩) },
   undo ++ [⟨flag, c.start, offset⟩])

/-- `VersionChunk::PushDeletedEntries`. Modelled from the spec: reserve `n`
version-info slots at the chunk tail marked as newly inserted by the
transaction, chained into the transaction's undo buffer. -/
def VersionChunkM.PushDeletedEntries (c : VersionChunkM) (undo : List UndoEntry)
    (txnId n : Nat) : VersionChunkM × List UndoEntry :=
  ({ c with versions := c.versions ++ List.replicate n (some ⟨txnId⟩) },
   undo ++ (List.range n).map (fun k => ⟨.INSERT_TUPLE, c.start, c.count + k⟩))

/-- A ColumnSegment: a fixed-capacity buffer holding a contiguous run of one
column's values, with `start` the row id of its first element, `count` the
number of stored elements and `offset` the byte offset of the first free
byte. -/
structure ColumnSegment where
  start : Nat
  count : Nat
  offset : Nat
  data : List (Option Int)
deriving DecidableEq, Repr

/-- A freshly allocated column segment starting at the given row id. -/
def ColumnSegment.fresh (start : Nat) : ColumnSegment := ⟨start, 0, 0, []⟩

/-- The body of `DataTable::AppendVector` with an explicit iteration bound
(the source recursion terminates because every round after the first
copies at least one element whenever the element size fits in a block;
`count + 2` rounds always suffice under that assumption). Appends data
into the tail segment of one column's segment tree, copying at most
`(BLOCK_SIZE - segment->offset) / type_size` elements and allocating a new
segment starting at `segment->start + segment->count` for the rest. -/
def appendVectorGo (B type_size : Nat) (src : List (Option Int)) :
    Nat → List ColumnSegment → Nat → Nat → List ColumnSegment
  | 0, tree, _, _ => tree
  | fuel + 1, tree, offset, count =>
    let segment := tree.getLastD (ColumnSegment.fresh 0)
    let start_position := segment.offset
    let elements_to_copy := min ((B - start_position) / type_size) count
    let segment' :=
      if elements_to_copy > 0 then
        { segment with
          data := segment.data ++ (src.drop offset).take elements_to_copy,
          count := segment.count + elements_to_copy,
          offset := segment.offset + elements_to_copy * type_size }
      else segment
    let tree' := tree.dropLast ++ [segment']
    if elements_to_copy < count then
      appendVectorGo B type_size src fuel
        (tree' ++ [ColumnSegment.fresh (segment'.start + segment'.count)])
        (offset + elements_to_copy) (count - elements_to_copy)
    else tree'

/-- `DataTable::AppendVector` on one column's segment tree. -/
def DataTable.AppendVector (B type_size : Nat) (tree : List ColumnSegment)
    (src : List (Option Int)) (offset count : Nat) : List ColumnSegment :=
  appendVectorGo B type_size src (count + 2) tree offset count

/-- Per-column running min/max/has-null summary. Modelled from the spec:
`ColumnStatistics` internals are outside the core sources. -/
structure ColumnStatistics where
  hasNull : Bool
  minVal : Option Int
  maxVal : Option Int
deriving DecidableEq, Repr

/-- `ColumnStatistics::Update`: fold the appended or updated vector into the
running summary. Modelled from the spec. -/
def ColumnStatistics.Update (s : ColumnStatistics) (v : List (Option Int)) : ColumnStatistics :=
  v.foldl (fun s x =>
    match x with
    | none => { s with hasNull := true }
    | some n =>
      { s with
        minVal := some (match s.minVal with | none => n | some m => min m n),
        maxVal := some (match s.maxVal with | none => n | some m => max m n) }) s

/-- The mutable state of one table: the row-wise tree of VersionChunks, the
per-column segment trees, the per-column statistics and the active
transaction's undo buffer. -/
structure TableState where
  chunks : List VersionChunkM
  segments : List (List ColumnSegment)
  stats : List ColumnStatistics
  undo : List UndoEntry
deriving DecidableEq, Repr

/-- Static description of a table: name, per-column value sizes
(`GetTypeIdSize` of each column type) and the bound constraints. -/
structure TableInfo where
  name : String
  typeSizes : List Nat
  constraints : List Constraint

/-- `DataTable::AppendVersionChunk`: allocate a fresh VersionChunk at the
given start row. (The source also pins per-column segment positions into
the chunk's column-pointer table; in this model base positions are
recovered from absolute row ids.) -/
def DataTable.AppendVersionChunk (start : Nat) : VersionChunkM := ⟨start, 0, [], []⟩

/-- The allocation-and-fill loop of `DataTable::Append` (lines 211-230):
copy at most `STORAGE_CHUNK_SIZE - last_chunk->count` rows into the tail
chunk — reserving undo slots via `PushDeletedEntries`, then appending each
column via `AppendVector`, then advancing the chunk count — and allocate a
fresh VersionChunk at `last_chunk->start + last_chunk->count` whenever
rows remain. The fuel argument bounds the iteration count; `remainder + 2`
iterations always suffice for a positive chunk capacity. -/
def appendLoopGo (CAP B : Nat) (typeSizes : List Nat) (txnId : Nat)
    (cols : List (List (Option Int))) :
    Nat → List VersionChunkM → VersionChunkM → List (List ColumnSegment) →
    List UndoEntry → Nat → Nat →
    List VersionChunkM × List (List ColumnSegment) × List UndoEntry
  | 0, prev, last, segs, undo, _, _ => (prev ++ [last], segs, undo)
  | fuel + 1, prev, last, segs, undo, offset, remainder =>
    if remainder = 0 then (prev ++ [last], segs, undo)
    else
      let to_copy := min (CAP - last.count) remainder
      let next :=
        if to_copy > 0 then
          let pushed := last.PushDeletedEntries undo txnId to_copy
          let segsN := (List.range segs.length).map (fun i =>
            DataTable.AppendVector B (typeSizes.getD i 1) (segs.getD i [])
              (cols.getD i []) offset to_copy)
          ({ pushed.1 with count := pushed.1.count + to_copy }, segsN, pushed.2)
        else (last, segs, undo)
      let offset' := offset + to_copy
      let remainder' := remainder - to_copy
      if remainder' > 0 then
        appendLoopGo CAP B typeSizes txnId cols fuel (prev ++ [next.1])
          (DataTable.AppendVersionChunk (next.1.start + next.1.count))
          next.2.1 next.2.2 offset' remainder'
      else (prev ++ [next.1], next.2.1, next.2.2)

/-- `DataTable::Append`: no-op on an empty chunk; catalog check on the
column count; constraint verification; index append (which may fail before
any base mutation); statistics update; then the chunk fill loop. -/
def DataTable.Append (tinfo : TableInfo) (B CAP : Nat) (indexes : List IndexM)
    (txnId : Nat) (st : TableState) (chunk : DataChunkM) :
    Except (Err × TableState) TableState :=
  if chunk.size = 0 then .ok st
  else if chunk.columns.length ≠ tinfo.typeSizes.length then
    .error (.catalog "Mismatch in column count for append", st)
  else
    match VerifyAppendConstraints tinfo.name tinfo.constraints chunk with
    | .error e => .error (e, st)
    | .ok _ =>
      match st.chunks.getLast? with
      | none => .error (.internalAssert "storage_tree.nodes.back()", st)
      | some last_chunk =>
        let row_start := last_chunk.start + last_chunk.count
        match (DataTable.AppendToIndexes indexes chunk row_start).2 with
        | some e => .error (e, st)
        | none =>
          let stats' := (st.stats.enum).map (fun p =>
            ColumnStatistics.Update p.2 (chunk.columns.getD p.1 []))
          let r := appendLoopGo CAP B tinfo.typeSizes txnId chunk.columns (chunk.size + 2)
            st.chunks.dropLast last_chunk st.segments st.undo 0 chunk.size
          .ok { chunks := r.1, segments := r.2.1, stats := stats', undo := r.2.2 }

/-- `SegmentTree::GetSegment` on the row-wise tree. Modelled from the spec:
lookup by key returning the segment whose `[start, start + count)`
contains the key — here returning its index in the chunk list. -/
def getChunkIndex (chunks : List VersionChunkM) (row : Nat) : Option Nat :=
  chunks.findIdx? (fun c => decide (c.start ≤ row) && decide (row < c.start + c.count))

/-- The first-writer-wins conflict test applied to the head version info of
the row with absolute id `id`: in progress and owned by another
transaction. -/
def conflictsWith (chunk : VersionChunkM) (txnId id : Nat) : Bool :=
  match chunk.GetVersionInfo (id - chunk.start) with
  | some v => decide (TRANSACTION_ID_START ≤ v.version_number) && v.version_number != txnId
  | none => false

/-- The per-row loop of `DataTable::Delete` (lines 258-275): for each row id
translate to a local offset, throw a TransactionException when the head
version info is owned by another in-progress transaction, and otherwise
push a DELETE_TUPLE undo record and set the deleted flag. An error carries
the chunk and undo buffer as already mutated when it is thrown. -/
def deleteLoop (txnId : Nat) : VersionChunkM → List UndoEntry → List Nat →
    Except (Err × VersionChunkM × List UndoEntry) (VersionChunkM × List UndoEntry)
  | chunk, undo, [] => .ok (chunk, undo)
  | chunk, undo, id :: rest =>
    if conflictsWith chunk txnId id then
      .error (.transactionConflict "Conflict on tuple deletion!", chunk, undo)
    else
      let p := chunk.PushTuple undo txnId .DELETE_TUPLE (id - chunk.start)
      deleteLoop txnId (p.1.SetDeleted (id - chunk.start)) p.2 rest

/-- `DataTable::Delete`: no-op on an empty row-identifier vector; otherwise
resolve the chunk of the first row id and run the per-row loop under the
chunk's exclusive lock. -/
def DataTable.Delete (st : TableState) (txnId : Nat) (row_identifiers : List Nat) :
    Except (Err × TableState) TableState :=
  match row_identifiers with
  | [] => .ok st
  | first_id :: _ =>
    match getChunkIndex st.chunks first_id with
    | none => .error (.internalAssert "GetChunk", st)
    | some ci =>
      let chunk := st.chunks.getD ci ⟨0, 0, [], []⟩
      match deleteLoop txnId chunk st.undo row_identifiers with
      | .error (e, c', u') =>
        .error (e, { st with chunks := st.chunks.set ci c', undo := u' })
      | .ok (c', u') => .ok { st with chunks := st.chunks.set ci c', undo := u' }

/-- The batch conflict pre-check of `DataTable::Update` (lines 424-436):
inspect every row id of the batch for a version conflict before anything
is pushed into the undo buffer. -/
def checkConflicts (chunk : VersionChunkM) (txnId : Nat) : List Nat → Option Err
  | [] => none
  | id :: rest =>
    if conflictsWith chunk txnId id then
      some (.transactionConflict "Conflict on tuple update!")
    else checkConflicts chunk txnId rest

/-- The undo loop of `DataTable::Update` (lines 442-446): push an
UPDATE_TUPLE pre-image for every row of the batch. -/
def pushTuples (txnId : Nat) (chunk : VersionChunkM) (undo : List UndoEntry)
    (ids : List Nat) : VersionChunkM × List UndoEntry :=
  ids.foldl (fun p id => p.1.PushTuple p.2 txnId .UPDATE_TUPLE (id - p.1.start)) (chunk, undo)

/-- `VersionChunk::GetPointerToRow` composed with the byte copy of the
update loop: write one column's updated value at the base-table position
of the given absolute row id. Modelled from the spec for the pointer
resolution: the write lands in the column segment whose
`[start, start + count)` contains the row id. -/
def writeColumnValue (tree : List ColumnSegment) (row : Nat) (v : Option Int) :
    List ColumnSegment :=
  tree.map (fun s =>
    if decide (s.start ≤ row) && decide (row < s.start + s.count) then
      { s with data := s.data.set (row - s.start) v }
    else s)

/-- The base-table write loop of `DataTable::Update` (lines 449-472): for
each updated column, copy each row's new value (nulls materialized as
sentinels by the vector copy primitive) into the base segments, then
refresh that column's statistics. -/
def applyColumnUpdates (segments : List (List ColumnSegment)) (stats : List ColumnStatistics)
    (column_ids : List Nat) (updates : DataChunkM) (ids : List Nat) :
    List (List ColumnSegment) × List ColumnStatistics :=
  (List.range column_ids.length).foldl (fun p col_idx =>
    let column_id := column_ids.getD col_idx 0
    let vals := updates.columns.getD col_idx []
    let tree' := (ids.enum).foldl (fun t q => writeColumnValue t q.2 (vals.getD q.1 none))
      (p.1.getD column_id [])
    (p.1.set column_id tree',
     p.2.set column_id (ColumnStatistics.Update (p.2.getD column_id ⟨false, none, none⟩) vals)))
    (segments, stats)

/-- `DataTable::Update`: no-op on an empty row-identifier vector; constraint
verification; chunk resolution; the batch conflict pre-check over all
tuples; index update; then undo records and the base-table writes. -/
def DataTable.Update (tinfo : TableInfo) (indexes : List IndexM) (txnId : Nat)
    (st : TableState) (row_identifiers : List Nat) (column_ids : List Nat)
    (updates : DataChunkM) : Except (Err × TableState) TableState :=
  match row_identifiers with
  | [] => .ok st
  | first_id :: _ =>
    match VerifyUpdateConstraints tinfo.name tinfo.typeSizes.length tinfo.constraints
        updates column_ids with
    | .error e => .error (e, st)
    | .ok _ =>
      match getChunkIndex st.chunks first_id with
      | none => .error (.internalAssert "GetChunk", st)
      | some ci =>
        let chunk := st.chunks.getD ci ⟨0, 0, [], []⟩
        match checkConflicts chunk txnId row_identifiers with
        | some e => .error (e, st)
        | none =>
          match (DataTable.UpdateIndexes tinfo.typeSizes.length indexes column_ids
              updates row_identifiers).2 with
          | some e => .error (e, st)
          | none =>
            let pushed := pushTuples txnId chunk st.undo row_identifiers
            let written := applyColumnUpdates st.segments st.stats column_ids updates
              row_identifiers
            .ok { chunks := st.chunks.set ci pushed.1, segments := written.1,
                  stats := written.2, undo := pushed.2 }

/-- One VersionChunk as seen by a snapshot scan. Modelled from the spec:
`VersionChunk::Scan` produces, at sub-offset `o`, the next
up-to-VECTOR-SIZE block of tuples visible to the reading transaction
(abstracted as the number of visible rows of that stride, one list entry
per stride) and reports whether the stride just scanned was the chunk's
last segment. -/
structure ScanChunkModel where
  strides : List Nat
deriving DecidableEq, Repr

/-- Scan cursor state: the chunk cursor holds the chunks from the current
one through the `last_chunk` captured at initialization (the empty list
models the null cursor), plus the sub-offset inside the current chunk. -/
structure TableScanState where
  remaining : List ScanChunkModel
  offset : Nat
deriving DecidableEq, Repr

/-- `DataTable::InitializeScan`: position the cursor at the root chunk,
capture the last chunk, and start at sub-offset 0. -/
def DataTable.InitializeScan (chunks : List ScanChunkModel) : TableScanState :=
  ⟨chunks, 0⟩

/-- The driver loop of `DataTable::Scan` (lines 496-518): scan the current
chunk's stride; after its last segment either clear the cursor (when the
current chunk is the captured last chunk) or move to the next chunk at
sub-offset 0; otherwise advance the sub-offset; return as soon as the
result is non-empty. -/
def scanLoop : List ScanChunkModel → Nat → Nat × List ScanChunkModel × Nat
  | [], offset => (0, [], offset)
  | current :: rest, offset =>
    let rows := current.strides.getD offset 0
    if h : current.strides.length ≤ offset + 1 then
      if rest = [] then (rows, [], offset)
      else if rows > 0 then (rows, rest, 0)
      else scanLoop rest 0
    else
      if rows > 0 then (rows, current :: rest, offset + 1)
      else scanLoop (current :: rest) (offset + 1)
  termination_by l o => (l.length, (l.headD ⟨[]⟩).strides.length - o)
  decreasing_by
  · exact Prod.Lex.left _ _ (by simp)
  · exact Prod.Lex.right _ (by simp; omega)

/-- `DataTable::Scan`: one invocation of the scan driver, returning the
number of rows produced into the result vector and the new cursor
state. -/
def DataTable.Scan (state : TableScanState) : Nat × TableScanState :=
  let r := scanLoop state.remaining state.offset
  (r.1, ⟨r.2.1, r.2.2⟩)

/-! ## Lemmas about constraint verification -/

theorem checkZeroLoop_err_iff (t : String) (v : List (Option Int)) :
    checkZeroLoop t v ≠ .ok () ↔ some 0 ∈ v := by
  induction v with
  | nil => simp [checkZeroLoop]
  | cons x rest ih =>
    cases x with
    | none => simpa [checkZeroLoop] using ih
    | some n =>
      by_cases hn : n = 0
      · subst hn; simp [checkZeroLoop]
      · simp [checkZeroLoop, hn, ih, Ne.symm hn]

theorem checkZeroLoop_err_constraint (t : String) (v : List (Option Int)) :
    ∀ e, checkZeroLoop t v = .error e → e.isConstraint = true := by
  induction v with
  | nil => intro e h; simp [checkZeroLoop] at h
  | cons x rest ih =>
    intro e h
    cases x with
    | none => exact ih e h
    | some n =>
      by_cases hn : n = 0
      · subst hn
        simp [checkZeroLoop] at h
        subst h; rfl
      · simp [checkZeroLoop, hn] at h
        exact ih e h

/-- C6: CHECK-constraint verification evaluates the bound expression into an
integer result vector and raises a ConstraintError exactly when some entry
of the result is non-null and equal to zero or the evaluator itself raises
an error (the evaluator's error being wrapped inside the ConstraintError);
if every non-null entry is nonzero the verification returns without
error. -/
theorem check_constraint_error_iff (t : String) (r : Except String (List (Option Int))) :
    (∀ e, r = .error e →
      VerifyCheckConstraint t r =
        .error (.constraint ("CHECK constraint failed: " ++ t ++ " (Error: " ++ e ++ ")"))) ∧
    (∀ v, r = .ok v → (VerifyCheckConstraint t r ≠ .ok () ↔ some 0 ∈ v)) ∧
    (∀ e', VerifyCheckConstraint t r = .error e' → e'.isConstraint = true) := by
  refine ⟨fun e he => ?_, fun v hv => ?_, fun e' he' => ?_⟩
  · subst he; rfl
  · subst hv; simpa [VerifyCheckConstraint] using checkZeroLoop_err_iff t v
  · cases r with
    | error e =>
      simp [VerifyCheckConstraint] at he'
      subst he'; rfl
    | ok v =>
      simp only [VerifyCheckConstraint] at he'
      exact checkZeroLoop_err_constraint t v e' he'

/-- Witness for C6: an evaluator error is wrapped inside the raised
ConstraintError. -/
theorem check_constraint_error_iff_witness :
    VerifyCheckConstraint "tbl" (.error "boom") =
      .error (.constraint ("CHECK constraint failed: " ++ "tbl" ++ " (Error: " ++ "boom" ++ ")")) :=
  (check_constraint_error_iff "tbl" (.error "boom")).1 "boom" rfl

/-- C7 counterexample: on a UNIQUE constraint with two key columns the
verifier fails the debug assertion `keys.size() == 1` — an internal
assertion failure, not the NotImplementedError named by the claim. -/
theorem unique_multi_key_not_notimplemented :
    VerifyUniqueConstraint [0, 1] ⟨[[some 1], [some 2]], 1⟩ =
      .error (.internalAssert "keys.size() == 1") ∧
    Err.isNotImplemented (.internalAssert "keys.size() == 1") = false := by
  exact ⟨rfl, rfl⟩

theorem verifyUnique_single_eq (k : Nat) (chunk : DataChunkM) :
    VerifyUniqueConstraint [k] chunk =
      if (chunk.columns.getD k []).Nodup then .ok ()
      else .error (.constraint "duplicate key value violates primary key or unique constraint") := by
  unfold VerifyUniqueConstraint uniqueKeyLoop VectorOperations.Unique
  generalize chunk.columns.getD k [] = col
  by_cases hn : col.Nodup
  · rw [if_neg (by simp), if_pos (by rw [beq_iff_eq, List.dedup_eq_self]; exact hn),
      if_pos hn]
    rfl
  · rw [if_neg (by simp),
      if_neg (by rw [beq_iff_eq, List.dedup_eq_self]; exact hn), if_neg hn]

/-- C7 (amended): a UNIQUE constraint with more than one key column fails
the debug assertion `keys.size() == 1` (an internal assertion failure, not
a NotImplementedError); for a single key column a ConstraintError is
raised if and only if the referenced column within the input chunk
contains duplicate values. -/
theorem unique_constraint_single_key (keys : List Nat) (chunk : DataChunkM) :
    (keys.length ≠ 1 →
      VerifyUniqueConstraint keys chunk = .error (.internalAssert "keys.size() == 1")) ∧
    (∀ k, keys = [k] →
      (VerifyUniqueConstraint keys chunk ≠ .ok () ↔ ¬ (chunk.columns.getD k []).Nodup)) ∧
    (∀ e, VerifyUniqueConstraint keys chunk = .error e → e.isNotImplemented = false) := by
  refine ⟨fun h => ?_, fun k hk => ?_, fun e he => ?_⟩
  · simp [VerifyUniqueConstraint, h]
  · subst hk
    rw [verifyUnique_single_eq]
    by_cases hn : (chunk.columns.getD k []).Nodup
    · simp [hn]
    · simp [hn]
  · by_cases h1 : keys.length = 1
    · obtain ⟨k, hk⟩ : ∃ k, keys = [k] := by
        cases keys with
        | nil => simp at h1
        | cons a t =>
          cases t with
          | nil => exact ⟨a, rfl⟩
          | cons b t' => simp at h1
      subst hk
      rw [verifyUnique_single_eq] at he
      by_cases hn : (chunk.columns.getD k []).Nodup
      · rw [if_pos hn] at he; exact absurd he (by simp)
      · rw [if_neg hn] at he
        simp only [Except.error.injEq] at he
        subst he; rfl
    · simp only [VerifyUniqueConstraint, if_pos h1] at he
      simp only [Except.error.injEq] at he
      subst he; rfl

/-- Witness for C7: a single-key UNIQUE constraint over a column with a
duplicated value fails. -/
theorem unique_constraint_single_key_witness :
    VerifyUniqueConstraint [0] ⟨[[some 1, some 1]], 2⟩ ≠ .ok () :=
  ((unique_constraint_single_key [0] ⟨[[some 1, some 1]], 2⟩).2.1 0 rfl).mpr (by decide)

/-- C10: every write entry point is a silent no-op on empty input: Append
with a chunk of size 0 returns immediately with the table unchanged and no
error — even when the chunk's column count does not match the catalog, the
CatalogError column-count check being skipped — and Delete and Update with
an empty row-identifier vector likewise return with the table unchanged
and no error raised. -/
theorem empty_input_noop (tinfo : TableInfo) (B CAP : Nat) (indexes : List IndexM)
    (txnId : Nat) (st : TableState) (chunk : DataChunkM) (column_ids : List Nat)
    (updates : DataChunkM) :
    (chunk.size = 0 → DataTable.Append tinfo B CAP indexes txnId st chunk = .ok st) ∧
    DataTable.Delete st txnId [] = .ok st ∧
    DataTable.Update tinfo indexes txnId st [] column_ids updates = .ok st := by
  refine ⟨fun h => ?_, rfl, rfl⟩
  simp [DataTable.Append, h]

/-- Witness for C10: an empty chunk whose two columns do not match the
one-column catalog is still silently accepted. -/
theorem empty_input_noop_witness :
    DataTable.Append ⟨"t", [4], []⟩ 8 4 [] 1 ⟨[⟨0, 0, [], []⟩], [[]], [], []⟩ ⟨[[], []], 0⟩ =
      .ok ⟨[⟨0, 0, [], []⟩], [[]], [], []⟩ :=
  (empty_input_noop ⟨"t", [4], []⟩ 8 4 [] 1 ⟨[⟨0, 0, [], []⟩], [[]], [], []⟩
    ⟨[[], []], 0⟩ [] ⟨[], 0⟩).1 rfl

/-! ## Update: batch conflict pre-check (C1) -/

theorem checkConflicts_some_of_mem (c : VersionChunkM) (t : Nat) :
    ∀ ids : List Nat, (∃ id ∈ ids, conflictsWith c t id = true) →
      checkConflicts c t ids = some (.transactionConflict "Conflict on tuple update!") := by
  intro ids
  induction ids with
  | nil => rintro ⟨id, h, _⟩; cases h
  | cons a r ih =>
    rintro ⟨id, hmem, hc⟩
    by_cases ha : conflictsWith c t a = true
    · simp [checkConflicts, ha]
    · rcases List.mem_cons.mp hmem with rfl | hr
      · exact absurd hc ha
      · simp only [checkConflicts, ha, Bool.false_eq_true, if_false]
        exact ih ⟨id, hr, hc⟩

/-- C1: in Update the conflict check runs over the entire batch before any
PushTuple and before any base-column write: every error thrown by Update
carries the table state exactly as it was (zero undo records emitted, no
base segment, chunk or statistic mutated) — in particular any
TransactionConflictError does — and a conflict anywhere in the batch
(given that constraint verification succeeded and the chunk resolved)
makes Update raise exactly that TransactionConflictError. -/
theorem update_conflict_precheck (tinfo : TableInfo) (indexes : List IndexM) (txnId : Nat)
    (st : TableState) (ids : List Nat) (column_ids : List Nat) (updates : DataChunkM) :
    (∀ e st', DataTable.Update tinfo indexes txnId st ids column_ids updates =
      .error (e, st') → st' = st) ∧
    (∀ first rest ci, ids = first :: rest →
      VerifyUpdateConstraints tinfo.name tinfo.typeSizes.length tinfo.constraints
        updates column_ids = .ok () →
      getChunkIndex st.chunks first = some ci →
      (∃ id ∈ ids, conflictsWith (st.chunks.getD ci ⟨0, 0, [], []⟩) txnId id = true) →
      DataTable.Update tinfo indexes txnId st ids column_ids updates =
        .error (.transactionConflict "Conflict on tuple update!", st)) := by
  constructor
  · intro e st' h
    cases ids with
    | nil =>
      simp only [DataTable.Update] at h
      exact absurd h (by simp)
    | cons f r =>
      unfold DataTable.Update at h
      simp only [] at h
      cases hv : VerifyUpdateConstraints tinfo.name tinfo.typeSizes.length tinfo.constraints
          updates column_ids with
      | error e1 =>
        rw [hv] at h
        simp only [Except.error.injEq, Prod.mk.injEq] at h
        exact h.2.symm
      | ok u =>
        cases u
        rw [hv] at h
        simp only [] at h
        cases hci : getChunkIndex st.chunks f with
        | none =>
          rw [hci] at h
          simp only [Except.error.injEq, Prod.mk.injEq] at h
          exact h.2.symm
        | some ci =>
          rw [hci] at h
          simp only [] at h
          cases hcc : checkConflicts (st.chunks.getD ci ⟨0, 0, [], []⟩) txnId (f :: r) with
          | some e2 =>
            rw [hcc] at h
            simp only [Except.error.injEq, Prod.mk.injEq] at h
            exact h.2.symm
          | none =>
            rw [hcc] at h
            simp only [] at h
            cases hui : (DataTable.UpdateIndexes tinfo.typeSizes.length indexes column_ids
                updates (f :: r)).2 with
            | some e3 =>
              rw [hui] at h
              simp only [Except.error.injEq, Prod.mk.injEq] at h
              exact h.2.symm
            | none =>
              rw [hui] at h
              exact absurd h (by simp)
  · intro first rest ci hids hv hci hconf
    subst hids
    have hcc := checkConflicts_some_of_mem (st.chunks.getD ci ⟨0, 0, [], []⟩) txnId
      (first :: rest) hconf
    simp only [List.getD_eq_getElem?_getD] at hcc
    simp [DataTable.Update, hv, hci, hcc]

/-- Witness for C1: a single-row Update conflicting with another in-progress
transaction raises a TransactionConflictError with the table state intact. -/
theorem update_conflict_precheck_witness :
    DataTable.Update ⟨"t", [4], []⟩ [] (TRANSACTION_ID_START + 1)
      ⟨[⟨0, 1, [some ⟨TRANSACTION_ID_START⟩], [false]⟩], [], [], []⟩ [0] [0]
      ⟨[[some 3]], 1⟩ =
      .error (.transactionConflict "Conflict on tuple update!",
        ⟨[⟨0, 1, [some ⟨TRANSACTION_ID_START⟩], [false]⟩], [], [], []⟩) :=
  (update_conflict_precheck ⟨"t", [4], []⟩ [] (TRANSACTION_ID_START + 1)
      ⟨[⟨0, 1, [some ⟨TRANSACTION_ID_START⟩], [false]⟩], [], [], []⟩ [0] [0]
      ⟨[[some 3]], 1⟩).2 0 [] 0 rfl rfl (by decide)
    ⟨0, by decide, by decide⟩

/-! ## Delete: interleaved conflict check (C2) -/

/-- The combined effect of one non-conflicting Delete iteration on the
chunk: the version slot of the row is overwritten with the transaction's
version node and the row's deleted bit is set. -/
def deleteMark (txnId : Nat) (c : VersionChunkM) (id : Nat) : VersionChunkM :=
  { c with
    versions := c.versions.set (id - c.start) (some ⟨txnId⟩),
    deleted := c.deleted.set (id - c.start) true }

theorem conflictsWith_deleteMark_ne (t t' : Nat) (c : VersionChunkM) (p id : Nat)
    (h : id - c.start ≠ p - c.start) :
    conflictsWith (deleteMark t' c p) t id = conflictsWith c t id := by
  unfold conflictsWith VersionChunkM.GetVersionInfo deleteMark
  simp only [List.getD_eq_getElem?_getD, List.getElem?_set_ne (Ne.symm h)]

theorem deleteLoop_first_conflict (txnId : Nat) (bad : Nat) (rest : List Nat) :
    ∀ (pre : List Nat) (chunk : VersionChunkM) (undo : List UndoEntry),
      ((pre ++ [bad]).map (fun id => id - chunk.start)).Nodup →
      (∀ id ∈ pre, conflictsWith chunk txnId id = false) →
      conflictsWith chunk txnId bad = true →
      deleteLoop txnId chunk undo (pre ++ bad :: rest) =
        .error (.transactionConflict "Conflict on tuple deletion!",
          pre.foldl (deleteMark txnId) chunk,
          undo ++ pre.map (fun id =>
            ⟨.DELETE_TUPLE, chunk.start, id - chunk.start⟩)) := by
  intro pre
  induction pre with
  | nil =>
    intro chunk undo _ _ hbad
    simp [deleteLoop, hbad]
  | cons p pre' ih =>
    intro chunk undo hnodup hpre hbad
    have hp : conflictsWith chunk txnId p = false := hpre p (by simp)
    have hmark :
        ((chunk.PushTuple undo txnId .DELETE_TUPLE (p - chunk.start)).1.SetDeleted
          (p - chunk.start)) = deleteMark txnId chunk p := rfl
    have hstart : (deleteMark txnId chunk p).start = chunk.start := rfl
    have hheadnm : (p - chunk.start) ∉ ((pre' ++ [bad]).map (fun id => id - chunk.start)) := by
      have := hnodup
      simp only [List.cons_append, List.map_cons, List.nodup_cons] at this
      exact this.1
    have hofs : ∀ id ∈ pre' ++ [bad], id - chunk.start ≠ p - chunk.start := by
      intro id hid heq
      exact hheadnm (heq ▸ List.mem_map_of_mem _ hid)
    have IH := ih (deleteMark txnId chunk p)
      (undo ++ [⟨.DELETE_TUPLE, chunk.start, p - chunk.start⟩])
      (by
        rw [show (deleteMark txnId chunk p).start = chunk.start from rfl]
        have := hnodup
        simp only [List.cons_append, List.map_cons, List.nodup_cons] at this
        exact this.2)
      (by
        intro id hid
        rw [conflictsWith_deleteMark_ne txnId txnId chunk p id
          (hofs id (List.mem_append_left _ hid))]
        exact hpre id (List.mem_cons_of_mem _ hid))
      (by
        rw [conflictsWith_deleteMark_ne txnId txnId chunk p bad
          (hofs bad (List.mem_append_right _ (by simp)))]
        exact hbad)
    have hundo : (chunk.PushTuple undo txnId .DELETE_TUPLE (p - chunk.start)).2 =
        undo ++ [⟨.DELETE_TUPLE, chunk.start, p - chunk.start⟩] := rfl
    show deleteLoop txnId chunk undo (p :: (pre' ++ bad :: rest)) = _
    simp only [deleteLoop, hp, Bool.false_eq_true, if_false, hmark, hundo]
    rw [IH]
    simp [hstart, List.foldl_cons, List.append_assoc]

/-- C2 counterexample: a two-row Delete whose second row conflicts with
another in-progress transaction raises a TransactionConflictError after
the first row of the batch has already been pushed into the undo buffer
and marked deleted — refuting the claim that no undo records are emitted
and no base data is mutated when the error propagates. -/
theorem delete_partial_mutation_counterexample :
    DataTable.Delete
        ⟨[⟨0, 2, [none, some ⟨TRANSACTION_ID_START⟩], [false, false]⟩], [], [], []⟩
        (TRANSACTION_ID_START + 1) [0, 1] =
      .error (.transactionConflict "Conflict on tuple deletion!",
        ⟨[⟨0, 2, [some ⟨TRANSACTION_ID_START + 1⟩, some ⟨TRANSACTION_ID_START⟩],
            [true, false]⟩], [], [],
         [⟨.DELETE_TUPLE, 0, 0⟩]⟩) ∧
    ([⟨UndoFlags.DELETE_TUPLE, 0, 0⟩] : List UndoEntry) ≠ [] := by
  refine ⟨rfl, by decide⟩

/-- C2 (amended): Delete interleaves the conflict check with mutation row by
row: when the first conflicting row of the batch is preceded by the
non-conflicting rows `pre` (over distinct row offsets), Delete raises a
TransactionConflictError with exactly the rows of `pre` pushed into the
undo buffer (one DELETE_TUPLE record each) and marked deleted in the base
chunk; only when the first row of the batch conflicts does the error
propagate with no undo records and no mutation. -/
theorem delete_first_conflict_prefix (st : TableState) (txnId : Nat) (pre : List Nat)
    (bad : Nat) (rest : List Nat) (ci : Nat)
    (hci : getChunkIndex st.chunks ((pre ++ bad :: rest).headD 0) = some ci)
    (hnodup : ((pre ++ [bad]).map
      (fun id => id - (st.chunks.getD ci ⟨0, 0, [], []⟩).start)).Nodup)
    (hpre : ∀ id ∈ pre, conflictsWith (st.chunks.getD ci ⟨0, 0, [], []⟩) txnId id = false)
    (hbad : conflictsWith (st.chunks.getD ci ⟨0, 0, [], []⟩) txnId bad = true) :
    DataTable.Delete st txnId (pre ++ bad :: rest) =
      .error (.transactionConflict "Conflict on tuple deletion!",
        { st with
          chunks := st.chunks.set ci
            (pre.foldl (deleteMark txnId) (st.chunks.getD ci ⟨0, 0, [], []⟩)),
          undo := st.undo ++ pre.map (fun id =>
            ⟨.DELETE_TUPLE, (st.chunks.getD ci ⟨0, 0, [], []⟩).start,
             id - (st.chunks.getD ci ⟨0, 0, [], []⟩).start⟩) }) := by
  have hloop := deleteLoop_first_conflict txnId bad rest pre
    (st.chunks.getD ci ⟨0, 0, [], []⟩) st.undo hnodup hpre hbad
  obtain ⟨f, tail, hft⟩ : ∃ f tail, pre ++ bad :: rest = f :: tail := by
    cases h : pre ++ bad :: rest with
    | nil => exact absurd h (by simp)
    | cons f t => exact ⟨f, t, rfl⟩
  rw [hft] at hci
  simp only [List.headD_cons] at hci
  conv_lhs => rw [hft]
  unfold DataTable.Delete
  simp only [hci]
  rw [← hft, hloop]

/-- Witness for C2 (amended): the prefix before the first conflicting row is
pushed and marked deleted, then the error propagates. -/
theorem delete_first_conflict_prefix_witness :
    DataTable.Delete
        ⟨[⟨0, 3, [none, none, some ⟨TRANSACTION_ID_START⟩], [false, false, false]⟩],
         [[]], [], []⟩
        (TRANSACTION_ID_START + 5) ([0, 1] ++ 2 :: []) =
      .error (.transactionConflict "Conflict on tuple deletion!",
        ⟨[⟨0, 3, [some ⟨TRANSACTION_ID_START + 5⟩, some ⟨TRANSACTION_ID_START + 5⟩,
             some ⟨TRANSACTION_ID_START⟩], [true, true, false]⟩],
         [[]], [],
         [⟨.DELETE_TUPLE, 0, 0⟩, ⟨.DELETE_TUPLE, 0, 1⟩]⟩) := by
  have h := delete_first_conflict_prefix
    ⟨[⟨0, 3, [none, none, some ⟨TRANSACTION_ID_START⟩], [false, false, false]⟩],
     [[]], [], []⟩
    (TRANSACTION_ID_START + 5) [0, 1] 2 [] 0 rfl (by decide) (by decide) rfl
  exact h.trans rfl

/-! ## Index coordination (C4) -/

theorem appendIndexLoop_all_ok (chunk : DataChunkM) (rows : List Nat) :
    ∀ (l : List IndexM) (b : Nat), (∀ ix ∈ l, ix.appendOk = true) →
      appendIndexLoop chunk rows l b =
        ((List.range' b l.length).map (fun j => .appendEv j chunk rows), none) := by
  intro l
  induction l with
  | nil => intro b _; simp [appendIndexLoop]
  | cons ix rest ih =>
    intro b h
    have hix : ix.appendOk = true := h ix (by simp)
    simp [appendIndexLoop, hix, ih (b + 1) (fun i hi => h i (List.mem_cons_of_mem _ hi)),
      List.range'_succ]

theorem appendIndexLoop_first_fail (chunk : DataChunkM) (rows : List Nat)
    (ixf : IndexM) (l2 : List IndexM) (hf : ixf.appendOk = false) :
    ∀ (l1 : List IndexM) (b : Nat), (∀ ix ∈ l1, ix.appendOk = true) →
      appendIndexLoop chunk rows (l1 ++ ixf :: l2) b =
        ((List.range' b (l1.length + 1)).map (fun j => .appendEv j chunk rows),
         some (b + l1.length)) := by
  intro l1
  induction l1 with
  | nil => intro b _; simp [appendIndexLoop, hf, List.range'_one]
  | cons ix rest ih =>
    intro b h
    have hix : ix.appendOk = true := h ix (by simp)
    have harith : b + 1 + rest.length = b + (rest.length + 1) := by omega
    simp [appendIndexLoop, hix, ih (b + 1) (fun i hi => h i (List.mem_cons_of_mem _ hi)),
      List.range'_succ, harith]

/-- The positions (from base index `b`) of the indexes affected by the
update, in order: those where `IndexIsUpdated(column_ids)` holds. -/
def updatedPositions : List IndexM → Nat → List Nat
  | [], _ => []
  | ix :: rest, b =>
    if ix.isUpdated then b :: updatedPositions rest (b + 1)
    else updatedPositions rest (b + 1)

theorem updateIndexLoop_all_ok (mock : DataChunkM) (rows : List Nat) :
    ∀ (l : List IndexM) (b : Nat), (∀ ix ∈ l, ix.isUpdated = true → ix.appendOk = true) →
      updateIndexLoop mock rows l b =
        ((updatedPositions l b).map (fun j => .appendEv j mock rows), none) := by
  intro l
  induction l with
  | nil => intro b _; simp [updateIndexLoop, updatedPositions]
  | cons ix rest ih =>
    intro b h
    have ihr := ih (b + 1) (fun i hi => h i (List.mem_cons_of_mem _ hi))
    cases hu : ix.isUpdated with
    | false => simp [updateIndexLoop, updatedPositions, hu, ihr]
    | true =>
      have hok : ix.appendOk = true := h ix (by simp) hu
      simp [updateIndexLoop, updatedPositions, hu, hok, ihr]

theorem updateIndexLoop_first_fail (mock : DataChunkM) (rows : List Nat)
    (ixf : IndexM) (l2 : List IndexM) (hu : ixf.isUpdated = true)
    (hf : ixf.appendOk = false) :
    ∀ (l1 : List IndexM) (b : Nat), (∀ ix ∈ l1, ix.isUpdated = true → ix.appendOk = true) →
      updateIndexLoop mock rows (l1 ++ ixf :: l2) b =
        ((updatedPositions l1 b).map (fun j => .appendEv j mock rows) ++
          [.appendEv (b + l1.length) mock rows],
         some (b + l1.length)) := by
  intro l1
  induction l1 with
  | nil => intro b _; simp [updateIndexLoop, updatedPositions, hu, hf]
  | cons ix rest ih =>
    intro b h
    have ihr := ih (b + 1) (fun i hi => h i (List.mem_cons_of_mem _ hi))
    have harith : b + 1 + rest.length = b + (rest.length + 1) := by omega
    cases hux : ix.isUpdated with
    | false => simp [updateIndexLoop, updatedPositions, hux, ihr, harith]
    | true =>
      have hok : ix.appendOk = true := h ix (by simp) hux
      simp [updateIndexLoop, updatedPositions, hux, hok, ihr, harith]

theorem updatedPositions_eq_filter (d : IndexM) :
    ∀ (l : List IndexM) (b : Nat),
      updatedPositions l b =
        ((List.range' b l.length).filter (fun j => (l.getD (j - b) d).isUpdated)) := by
  intro l
  induction l with
  | nil => intro b; simp [updatedPositions]
  | cons ix rest ih =>
    intro b
    have hfc : ∀ j ∈ List.range' (b + 1) rest.length,
        ((ix :: rest).getD (j - b) d).isUpdated = (rest.getD (j - (b + 1)) d).isUpdated := by
      intro j hj
      have hjb : b + 1 ≤ j := (List.mem_range'_1.mp hj).1
      have h1 : j - b = (j - (b + 1)) + 1 := by omega
      rw [h1, List.getD_cons_succ]
    cases hu : ix.isUpdated with
    | false =>
      simp only [updatedPositions, hu, Bool.false_eq_true, if_false, ih (b + 1),
        List.length_cons, List.range'_succ]
      rw [List.filter_cons]
      simp only [Nat.sub_self, List.getD_cons_zero, hu, Bool.false_eq_true, if_false]
      exact (List.filter_congr hfc).symm
    | true =>
      simp only [updatedPositions, hu, if_true, ih (b + 1), List.length_cons,
        List.range'_succ]
      rw [List.filter_cons]
      simp only [Nat.sub_self, List.getD_cons_zero, hu, if_true]
      rw [List.filter_congr hfc]

/-- C4: in AppendToIndexes (and analogously UpdateIndexes), when index `i` is
the first whose `Append` returns false, `Delete` is called with the same
chunk and row-id vector on every index strictly before `i` (for
UpdateIndexes only on those where `IndexIsUpdated` holds), no index after
`i` is touched, and a ConstraintError whose message contains "PRIMARY KEY
or UNIQUE" and "duplicated key" is raised; when every `Append` returns
true no error is raised and no `Delete` is called. -/
theorem index_rollback (indexes : List IndexM) (chunk : DataChunkM) (row_start : Nat)
    (tcount : Nat) (column_ids : List Nat) (updates : DataChunkM) (row_ids : List Nat) :
    ((∀ ix ∈ indexes, ix.appendOk = true) →
      DataTable.AppendToIndexes indexes chunk row_start =
        ((List.range' 0 indexes.length).map
          (fun j => .appendEv j chunk (GenerateSequence row_start chunk.size)), none)) ∧
    (∀ l1 ixf l2, indexes = l1 ++ ixf :: l2 → (∀ ix ∈ l1, ix.appendOk = true) →
      ixf.appendOk = false →
      DataTable.AppendToIndexes indexes chunk row_start =
        ((List.range' 0 (l1.length + 1)).map
            (fun j => .appendEv j chunk (GenerateSequence row_start chunk.size)) ++
          (List.range l1.length).map
            (fun j => .deleteEv j chunk (GenerateSequence row_start chunk.size)),
         some (.constraint "PRIMARY KEY or UNIQUE constraint violated: duplicated key"))) ∧
    ((∀ ix ∈ indexes, ix.isUpdated = true → ix.appendOk = true) →
      DataTable.UpdateIndexes tcount indexes column_ids updates row_ids =
        ((updatedPositions indexes 0).map
          (fun j => .appendEv j (CreateMockChunk tcount column_ids updates) row_ids),
         none)) ∧
    (∀ l1 ixf l2, indexes = l1 ++ ixf :: l2 →
      (∀ ix ∈ l1, ix.isUpdated = true → ix.appendOk = true) →
      ixf.isUpdated = true → ixf.appendOk = false →
      DataTable.UpdateIndexes tcount indexes column_ids updates row_ids =
        ((updatedPositions l1 0).map
            (fun j => .appendEv j (CreateMockChunk tcount column_ids updates) row_ids) ++
          [.appendEv l1.length (CreateMockChunk tcount column_ids updates) row_ids] ++
          (updatedPositions l1 0).map
            (fun j => .deleteEv j (CreateMockChunk tcount column_ids updates) row_ids),
         some (.constraint "PRIMARY KEY or UNIQUE constraint violated: duplicated key"))) ∧
    ((∃ a b, "PRIMARY KEY or UNIQUE constraint violated: duplicated key" =
        a ++ "PRIMARY KEY or UNIQUE" ++ b) ∧
     (∃ a b, "PRIMARY KEY or UNIQUE constraint violated: duplicated key" =
        a ++ "duplicated key" ++ b)) := by
  refine ⟨fun h => ?_, fun l1 ixf l2 hix h hf => ?_, fun h => ?_,
    fun l1 ixf l2 hix h hu hf => ?_, ?_, ?_⟩
  · cases indexes with
    | nil => simp [DataTable.AppendToIndexes]
    | cons i0 it =>
      have hloop := appendIndexLoop_all_ok chunk (GenerateSequence row_start chunk.size)
        (i0 :: it) 0 h
      simp [DataTable.AppendToIndexes, hloop]
  · subst hix
    have hloop := appendIndexLoop_first_fail chunk (GenerateSequence row_start chunk.size)
      ixf l2 hf l1 0 h
    have hne : (l1 ++ ixf :: l2).length ≠ 0 := by simp
    simp [DataTable.AppendToIndexes, hne, hloop]
  · cases indexes with
    | nil => simp [DataTable.UpdateIndexes, updatedPositions]
    | cons i0 it =>
      have hloop := updateIndexLoop_all_ok (CreateMockChunk tcount column_ids updates)
        row_ids (i0 :: it) 0 h
      simp [DataTable.UpdateIndexes, hloop]
  · subst hix
    have hloop := updateIndexLoop_first_fail (CreateMockChunk tcount column_ids updates)
      row_ids ixf l2 hu hf l1 0 h
    have hne : (l1 ++ ixf :: l2).length ≠ 0 := by simp
    have hpos : updatedPositions l1 0 =
        (List.range l1.length).filter (fun j => (l1.getD j ⟨true, true⟩).isUpdated) := by
      rw [updatedPositions_eq_filter ⟨true, true⟩ l1 0, List.range_eq_range']
      exact List.filter_congr (fun j _ => by rw [Nat.sub_zero])
    have hfilter : (List.range l1.length).filter
        (fun j => ((l1 ++ ixf :: l2).getD j ⟨true, true⟩).isUpdated) =
        updatedPositions l1 0 := by
      rw [hpos]
      exact List.filter_congr (fun j hj =>
        by rw [List.getD_append _ _ _ _ (List.mem_range.mp hj)])
    simp only [List.getD_eq_getElem?_getD] at hfilter
    simp [DataTable.UpdateIndexes, hne, hloop, hfilter, List.append_assoc]
  · exact ⟨"", " constraint violated: duplicated key", by decide⟩
  · exact ⟨"PRIMARY KEY or UNIQUE constraint violated: ", "", by decide⟩

/-- Witness for C4: with two indexes where the second rejects the append,
the first is appended then rolled back by a Delete with the same chunk and
row-id vector, and the duplicated-key ConstraintError is raised. -/
theorem index_rollback_witness :
    DataTable.AppendToIndexes [⟨true, true⟩, ⟨false, true⟩] ⟨[[some 1]], 2⟩ 7 =
      ([.appendEv 0 ⟨[[some 1]], 2⟩ [7, 8], .appendEv 1 ⟨[[some 1]], 2⟩ [7, 8],
        .deleteEv 0 ⟨[[some 1]], 2⟩ [7, 8]],
       some (.constraint "PRIMARY KEY or UNIQUE constraint violated: duplicated key")) :=
  ((index_rollback [⟨true, true⟩, ⟨false, true⟩] ⟨[[some 1]], 2⟩ 7 0 [] ⟨[], 0⟩ []).2.1
    [⟨true, true⟩] ⟨false, true⟩ [] rfl (by decide) rfl).trans rfl

/-! ## FOREIGN KEY constraints (C8) -/

theorem verifyAppend_append (t : String) (chunk : DataChunkM) (l1 l2 : List Constraint) :
    VerifyAppendConstraints t (l1 ++ l2) chunk =
      match VerifyAppendConstraints t l1 chunk with
      | .error e => .error e
      | .ok _ => VerifyAppendConstraints t l2 chunk := by
  induction l1 with
  | nil => simp [VerifyAppendConstraints]
  | cons c rest ih =>
    cases c with
    | notNull i n =>
      simp only [List.cons_append, VerifyAppendConstraints]
      cases VerifyNotNullConstraint t (chunk.columns.getD i []) n <;> simp [ih]
    | check ev cols =>
      simp only [List.cons_append, VerifyAppendConstraints]
      cases VerifyCheckConstraint t (ev chunk) <;> simp [ih]
    | unique keys =>
      simp only [List.cons_append, VerifyAppendConstraints]
      cases VerifyUniqueConstraint keys chunk <;> simp [ih]
    | foreignKey => simp [VerifyAppendConstraints]

theorem verifyAppend_fk_ne_ok (t : String) (chunk : DataChunkM) (l1 l2 : List Constraint) :
    VerifyAppendConstraints t (l1 ++ .foreignKey :: l2) chunk ≠ .ok () := by
  rw [verifyAppend_append]
  cases VerifyAppendConstraints t l1 chunk with
  | error e => simp
  | ok u => cases u; simp [VerifyAppendConstraints]

/-- C8: for a table with a bound FOREIGN KEY constraint, any non-empty
Append whose column count matches the catalog fails during constraint
verification — with NotImplementedError once the constraints before the
FOREIGN KEY pass, and with some error unconditionally — while Update
ignores the FOREIGN KEY constraint entirely: constraint verification is
the same with and without it. -/
theorem foreign_key_behavior (tinfo : TableInfo) (B CAP : Nat) (indexes : List IndexM)
    (txnId : Nat) (st : TableState) (chunk : DataChunkM) (l1 l2 : List Constraint)
    (updates : DataChunkM) (column_ids : List Nat) :
    (tinfo.constraints = l1 ++ .foreignKey :: l2 →
      chunk.size ≠ 0 → chunk.columns.length = tinfo.typeSizes.length →
      VerifyAppendConstraints tinfo.name l1 chunk = .ok () →
      DataTable.Append tinfo B CAP indexes txnId st chunk =
        .error (.notImplemented "Constraint type not implemented!", st)) ∧
    (tinfo.constraints = l1 ++ .foreignKey :: l2 →
      chunk.size ≠ 0 → chunk.columns.length = tinfo.typeSizes.length →
      ∀ res, DataTable.Append tinfo B CAP indexes txnId st chunk ≠ .ok res) ∧
    (VerifyUpdateConstraints tinfo.name tinfo.typeSizes.length (l1 ++ .foreignKey :: l2)
        updates column_ids =
      VerifyUpdateConstraints tinfo.name tinfo.typeSizes.length (l1 ++ l2)
        updates column_ids) := by
  refine ⟨fun hc hsz hcols hok => ?_, fun hc hsz hcols res h => ?_, ?_⟩
  · have hv : VerifyAppendConstraints tinfo.name tinfo.constraints chunk =
        .error (.notImplemented "Constraint type not implemented!") := by
      rw [hc, verifyAppend_append, hok]
      simp [VerifyAppendConstraints]
    simp [DataTable.Append, hsz, hcols, hv]
  · cases hv : VerifyAppendConstraints tinfo.name tinfo.constraints chunk with
    | ok u =>
      cases u
      rw [hc] at hv
      exact verifyAppend_fk_ne_ok tinfo.name chunk l1 l2 hv
    | error e =>
      simp [DataTable.Append, hsz, hcols, hv] at h
  · induction l1 with
    | nil => simp [VerifyUpdateConstraints]
    | cons c rest ih =>
      cases c with
      | notNull i n =>
        simp only [List.cons_append, VerifyUpdateConstraints]
        cases updateNotNullScan tinfo.name i n updates column_ids 0 <;> simp [ih]
      | check ev cols =>
        simp only [List.cons_append, VerifyUpdateConstraints]
        cases CreateMockChunkChecked tinfo.typeSizes.length column_ids cols updates with
        | error e => simp
        | ok mo =>
          cases mo with
          | none => simp [ih]
          | some mock =>
            cases VerifyCheckConstraint tinfo.name (ev mock) <;> simp [ih]
      | unique keys =>
        simp only [List.cons_append, VerifyUpdateConstraints]
        cases CreateMockChunkChecked tinfo.typeSizes.length column_ids keys updates with
        | error e => simp
        | ok mo =>
          cases mo with
          | none => simp [ih]
          | some mock =>
            cases VerifyUniqueConstraint keys mock <;> simp [ih]
      | foreignKey =>
        simp only [List.cons_append, VerifyUpdateConstraints]
        exact ih

/-- Witness for C8: a one-row Append into a table whose only constraint is a
FOREIGN KEY fails with NotImplementedError and the table unchanged. -/
theorem foreign_key_behavior_witness :
    DataTable.Append ⟨"t", [4], [.foreignKey]⟩ 16 4 [] 1
        ⟨[⟨0, 0, [], []⟩], [[⟨0, 0, 0, []⟩]], [⟨false, none, none⟩], []⟩ ⟨[[some 1]], 1⟩ =
      .error (.notImplemented "Constraint type not implemented!",
        ⟨[⟨0, 0, [], []⟩], [[⟨0, 0, 0, []⟩]], [⟨false, none, none⟩], []⟩) :=
  (foreign_key_behavior ⟨"t", [4], [.foreignKey]⟩ 16 4 [] 1
      ⟨[⟨0, 0, [], []⟩], [[⟨0, 0, 0, []⟩]], [⟨false, none, none⟩], []⟩ ⟨[[some 1]], 1⟩
      [] [] ⟨[], 0⟩ []).1 rfl (by decide) rfl rfl

/-! ## Column segment invariants (C5) -/

/-- The per-segment invariant of one column's tree: every segment's byte
offset equals its element count times the value size, and fits within one
block. -/
def segInvariant (type_size B : Nat) (tree : List ColumnSegment) : Bool :=
  tree.all (fun s => s.offset == s.count * type_size && decide (s.offset ≤ B))

/-- Density of one column's segment tree from a base row id: each segment
starts at the running total and adjacent segments satisfy
`seg.start + seg.count = next.start`. -/
def segDense : Nat → List ColumnSegment → Bool
  | _, [] => true
  | s0, seg :: rest => seg.start == s0 && segDense (seg.start + seg.count) rest

/-- Total number of values stored across the segments of one column. -/
def totalSegCount (tree : List ColumnSegment) : Nat :=
  (tree.map (fun s => s.count)).sum

theorem dropLast_append_getLastD {α : Type} (l : List α) (d : α) (h : l ≠ []) :
    l.dropLast ++ [l.getLastD d] = l := by
  induction l using List.reverseRecOn with
  | nil => exact absurd rfl h
  | append_singleton l' x _ =>
    simp [List.getLastD_eq_getLast?, List.getLast?_concat]

theorem getLastD_mem {α : Type} (l : List α) (d : α) (h : l ≠ []) : l.getLastD d ∈ l := by
  induction l using List.reverseRecOn with
  | nil => exact absurd rfl h
  | append_singleton l' x _ =>
    simp [List.getLastD_eq_getLast?, List.getLast?_concat]

theorem getD_append_length {α : Type} (l : List α) (x : α) (l2 : List α) (d : α) :
    (l ++ x :: l2).getD l.length d = x := by
  simp [List.getD_eq_getElem?_getD, List.getElem?_append_right (Nat.le_refl l.length)]

theorem getD_of_take_eq {α : Type} (l t : List α) (n m : Nat) (d : α)
    (h : l.take n = t) (hm : m < n) : l.getD m d = t.getD m d := by
  subst h
  simp [List.getD_eq_getElem?_getD, List.getElem?_take, hm]

theorem getD_last {α : Type} (l : List α) (d : α) (h : l ≠ []) :
    l.getD (l.length - 1) d = l.getLastD d := by
  induction l using List.reverseRecOn with
  | nil => exact absurd rfl h
  | append_singleton l' x _ =>
    have : (l' ++ [x]).length - 1 = l'.length := by simp
    rw [this]
    rw [getD_append_length l' x [] d]
    simp [List.getLastD_eq_getLast?, List.getLast?_concat]

theorem segDense_append : ∀ (l1 : List ColumnSegment) (s : Nat) (l2 : List ColumnSegment),
    segDense s (l1 ++ l2) = (segDense s l1 && segDense (s + totalSegCount l1) l2) := by
  intro l1
  induction l1 with
  | nil => intro s l2; simp [segDense, totalSegCount]
  | cons seg rest ih =>
    intro s l2
    by_cases h : seg.start = s
    · simp [segDense, h, ih, totalSegCount, Nat.add_assoc]
    · have hb : (seg.start == s) = false := beq_eq_false_iff_ne.mpr h
      simp [segDense, hb]

theorem segDense_last (l : List ColumnSegment) (s : Nat) (d : ColumnSegment)
    (h : l ≠ []) (hd : segDense s l = true) :
    (l.getLastD d).start + (l.getLastD d).count = s + totalSegCount l := by
  induction l using List.reverseRecOn with
  | nil => exact absurd rfl h
  | append_singleton l' x _ =>
    rw [segDense_append] at hd
    simp only [Bool.and_eq_true] at hd
    obtain ⟨h1, h2⟩ := hd
    simp only [segDense, Bool.and_true] at h2
    have hx : x.start = s + totalSegCount l' := beq_iff_eq.mp h2
    simp [List.getLastD_eq_getLast?, List.getLast?_concat, totalSegCount, hx]
    omega

theorem appendVectorGo_succ (B ts : Nat) (src : List (Option Int)) (f : Nat)
    (tree : List ColumnSegment) (offset count : Nat) :
    appendVectorGo B ts src (f + 1) tree offset count =
      (let segment := tree.getLastD (ColumnSegment.fresh 0)
       let start_position := segment.offset
       let elements_to_copy := min ((B - start_position) / ts) count
       let segment' :=
         if elements_to_copy > 0 then
           { segment with
             data := segment.data ++ (src.drop offset).take elements_to_copy,
             count := segment.count + elements_to_copy,
             offset := segment.offset + elements_to_copy * ts }
         else segment
       let tree' := tree.dropLast ++ [segment']
       if elements_to_copy < count then
         appendVectorGo B ts src f
           (tree' ++ [ColumnSegment.fresh (segment'.start + segment'.count)])
           (offset + elements_to_copy) (count - elements_to_copy)
       else tree') := by
  rfl

theorem segInvariant_append (ts B : Nat) (l1 l2 : List ColumnSegment) :
    segInvariant ts B (l1 ++ l2) = (segInvariant ts B l1 && segInvariant ts B l2) := by
  simp [segInvariant, List.all_append]

theorem appendVectorGo_spec (B ts : Nat) (src : List (Option Int))
    (hts : 0 < ts) (htsB : ts ≤ B) :
    ∀ (fuel count : Nat) (tree : List ColumnSegment) (offset s : Nat),
      count + 1 ≤ fuel → tree ≠ [] →
      segInvariant ts B tree = true → segDense s tree = true →
      (ts ≤ B - (tree.getLastD (ColumnSegment.fresh 0)).offset ∨ count = 0) →
      segInvariant ts B (appendVectorGo B ts src fuel tree offset count) = true ∧
      segDense s (appendVectorGo B ts src fuel tree offset count) = true ∧
      totalSegCount (appendVectorGo B ts src fuel tree offset count) =
        totalSegCount tree + count ∧
      (appendVectorGo B ts src fuel tree offset count).take (tree.length - 1) =
        tree.take (tree.length - 1) ∧
      ((appendVectorGo B ts src fuel tree offset count).getD (tree.length - 1)
          (ColumnSegment.fresh 0)).start = (tree.getLastD (ColumnSegment.fresh 0)).start ∧
      ((appendVectorGo B ts src fuel tree offset count).getD (tree.length - 1)
          (ColumnSegment.fresh 0)).count = (tree.getLastD (ColumnSegment.fresh 0)).count +
        min ((B - (tree.getLastD (ColumnSegment.fresh 0)).offset) / ts) count := by
  intro fuel
  induction fuel with
  | zero => intro count tree offset s hfuel _ _ _ _; exact absurd hfuel (by omega)
  | succ f ih =>
    intro count tree offset s hfuel hne hinv hdense hroom
    have hpos : 1 ≤ tree.length := List.length_pos.mpr hne
    have htree := dropLast_append_getLastD tree (ColumnSegment.fresh 0) hne
    by_cases hc0 : count = 0
    · subst hc0
      rw [appendVectorGo_succ]
      simp only [Nat.min_zero, gt_iff_lt, Nat.lt_irrefl, if_false, htree]
      refine ⟨hinv, hdense, by simp, by simp, ?_, ?_⟩
      · rw [getD_last tree _ hne]
      · rw [getD_last tree _ hne]; simp
    · have hroomL : ts ≤ B - (tree.getLastD (ColumnSegment.fresh 0)).offset :=
        hroom.resolve_right hc0
      rw [appendVectorGo_succ]
      simp only []
      set seg := tree.getLastD (ColumnSegment.fresh 0) with hsegdef
      have hmem : seg ∈ tree := getLastD_mem tree _ hne
      have hsegP := (List.all_eq_true.mp hinv) seg hmem
      simp only [Bool.and_eq_true, beq_iff_eq, decide_eq_true_eq] at hsegP
      obtain ⟨hoff, hle⟩ := hsegP
      have hdiv1 : 1 ≤ (B - seg.offset) / ts := (Nat.one_le_div_iff hts).mpr hroomL
      set e := min ((B - seg.offset) / ts) count with hedef
      have he1 : 1 ≤ e := le_min hdiv1 (by omega)
      have hele : e ≤ (B - seg.offset) / ts := min_le_left _ _
      have helec : e ≤ count := min_le_right _ _
      rw [if_pos (by omega : e > 0)]
      set seg' : ColumnSegment :=
        { seg with
          data := seg.data ++ (src.drop offset).take e,
          count := seg.count + e,
          offset := seg.offset + e * ts } with hseg'def
      have hstart' : seg'.start = seg.start := rfl
      have hcount' : seg'.count = seg.count + e := rfl
      have hets : e * ts ≤ B - seg.offset :=
        le_trans (Nat.mul_le_mul_right ts hele) (Nat.div_mul_le_self _ _)
      have hinvseg' : segInvariant ts B [seg'] = true := by
        simp [segInvariant, hseg'def, hoff, Nat.add_mul]
        omega
      have hdenseD : segDense s tree.dropLast = true ∧
          seg.start = s + totalSegCount tree.dropLast := by
        have hx := hdense
        rw [← htree, segDense_append] at hx
        simp only [Bool.and_eq_true] at hx
        refine ⟨hx.1, ?_⟩
        have h2 := hx.2
        simp only [segDense, Bool.and_true] at h2
        exact beq_iff_eq.mp h2
      have hinvD : segInvariant ts B tree.dropLast = true := by
        have hx := hinv
        rw [← htree, segInvariant_append] at hx
        simp only [Bool.and_eq_true] at hx
        exact hx.1
      have htotal : totalSegCount tree = totalSegCount tree.dropLast + seg.count := by
        conv_lhs => rw [← htree]
        simp [totalSegCount]
      have hlenD : tree.dropLast.length = tree.length - 1 := List.length_dropLast tree
      have htakeD : tree.take (tree.length - 1) = tree.dropLast :=
        (List.dropLast_eq_take tree).symm
      by_cases hec : e < count
      · rw [if_pos hec]
        set fresh := ColumnSegment.fresh (seg'.start + seg'.count) with hfreshdef
        set newTree := (tree.dropLast ++ [seg']) ++ [fresh] with hnewdef
        have hinvN : segInvariant ts B newTree = true := by
          rw [hnewdef, segInvariant_append, segInvariant_append]
          simp only [hinvD, hinvseg', Bool.true_and, Bool.and_true]
          simp [segInvariant, hfreshdef, ColumnSegment.fresh]
        have hdenseN : segDense s newTree = true := by
          rw [hnewdef, segDense_append, segDense_append]
          simp only [Bool.and_eq_true]
          refine ⟨⟨hdenseD.1, ?_⟩, ?_⟩
          · simp [segDense, beq_iff_eq, hstart', hdenseD.2]
          · simp [segDense, beq_iff_eq, hfreshdef, ColumnSegment.fresh, hstart', hcount',
              totalSegCount, hdenseD.2]
            omega
        have hroomN : ts ≤ B - (newTree.getLastD (ColumnSegment.fresh 0)).offset ∨
            count - e = 0 := by
          left
          rw [hnewdef, List.getLastD_concat]
          simp [hfreshdef, ColumnSegment.fresh]
          omega
        have hfuelN : count - e + 1 ≤ f := by omega
        have hneN : newTree ≠ [] := by simp [hnewdef]
        obtain ⟨iA, iDen, iTot, iTake, iStart, iCnt⟩ :=
          ih (count - e) newTree (offset + e) s hfuelN hneN hinvN hdenseN hroomN
        set out := appendVectorGo B ts src f newTree (offset + e) (count - e) with houtdef
        have hlenN : newTree.length - 1 = tree.length := by
          rw [hnewdef]
          simp only [List.length_append, List.length_cons, List.length_nil, hlenD]
          omega
        have htakeMid : out.take tree.length = tree.dropLast ++ [seg'] := by
          have hx := iTake
          rw [hlenN] at hx
          rw [hx, hnewdef]
          have hlen2 : (tree.dropLast ++ [seg']).length = tree.length := by
            simp [hlenD]; omega
          rw [← hlen2, List.take_left]
        have htotalN : totalSegCount newTree = totalSegCount tree + e := by
          have h1 : totalSegCount newTree = totalSegCount tree.dropLast + (seg.count + e) := by
            rw [hnewdef]
            simp [totalSegCount, hcount', hfreshdef, ColumnSegment.fresh]
          omega
        refine ⟨iA, iDen, ?_, ?_, ?_, ?_⟩
        · rw [iTot, htotalN]; omega
        · have h1 : out.take (tree.length - 1) =
              (out.take tree.length).take (tree.length - 1) := by
            rw [List.take_take]
            congr 1
            omega
          rw [h1, htakeMid, htakeD]
          have : tree.length - 1 = tree.dropLast.length := hlenD.symm
          rw [this, List.take_left]
        · have hgd : out.getD (tree.length - 1) (ColumnSegment.fresh 0) = seg' := by
            rw [getD_of_take_eq out (tree.dropLast ++ [seg']) tree.length (tree.length - 1)
              (ColumnSegment.fresh 0) htakeMid (by omega)]
            rw [← hlenD, getD_append_length]
          rw [hgd, hstart']
        · have hgd : out.getD (tree.length - 1) (ColumnSegment.fresh 0) = seg' := by
            rw [getD_of_take_eq out (tree.dropLast ++ [seg']) tree.length (tree.length - 1)
              (ColumnSegment.fresh 0) htakeMid (by omega)]
            rw [← hlenD, getD_append_length]
          rw [hgd, hcount']
      · rw [if_neg hec]
        have hecnt : e = count := by omega
        refine ⟨?_, ?_, ?_, ?_, ?_, ?_⟩
        · rw [segInvariant_append]
          simp [hinvD, hinvseg']
        · rw [segDense_append]
          simp only [Bool.and_eq_true]
          refine ⟨hdenseD.1, ?_⟩
          simp [segDense, beq_iff_eq, hstart', hdenseD.2]
        · have h1 : totalSegCount (tree.dropLast ++ [seg']) =
              totalSegCount tree.dropLast + (seg.count + e) := by
            simp [totalSegCount, hcount']
          rw [h1]
          omega
        · rw [htakeD, ← hlenD, List.take_left]
        · rw [← hlenD, getD_append_length, hstart']
        · rw [← hlenD, getD_append_length, hcount']

/-- C5: one `AppendVector` call writes exactly
`min((BLOCK_SIZE − tail.offset) / sizeof(t), count)` values into the tail
segment, recursing for the remainder into freshly allocated segments that
continue the row-id chain; afterwards every segment of the column still
satisfies `offset = count * sizeof(t)` and `offset ≤ BLOCK_SIZE`, adjacent
segments satisfy `seg.start + seg.count = next.start`, the column's total
value count grows by exactly `count`, and segments before the tail are
untouched. -/
theorem appendVector_invariants (B ts : Nat) (tree : List ColumnSegment)
    (src : List (Option Int)) (offset count s : Nat)
    (hts : 0 < ts) (htsB : ts ≤ B) (hne : tree ≠ [])
    (hinv : segInvariant ts B tree = true) (hdense : segDense s tree = true) :
    segInvariant ts B (DataTable.AppendVector B ts tree src offset count) = true ∧
    segDense s (DataTable.AppendVector B ts tree src offset count) = true ∧
    totalSegCount (DataTable.AppendVector B ts tree src offset count) =
      totalSegCount tree + count ∧
    (DataTable.AppendVector B ts tree src offset count).take (tree.length - 1) =
      tree.take (tree.length - 1) ∧
    ((DataTable.AppendVector B ts tree src offset count).getD (tree.length - 1)
        (ColumnSegment.fresh 0)).start = (tree.getLastD (ColumnSegment.fresh 0)).start ∧
    ((DataTable.AppendVector B ts tree src offset count).getD (tree.length - 1)
        (ColumnSegment.fresh 0)).count = (tree.getLastD (ColumnSegment.fresh 0)).count +
      min ((B - (tree.getLastD (ColumnSegment.fresh 0)).offset) / ts) count := by
  unfold DataTable.AppendVector
  by_cases hroom : ts ≤ B - (tree.getLastD (ColumnSegment.fresh 0)).offset
  · exact appendVectorGo_spec B ts src hts htsB (count + 2) count tree offset s (by omega)
      hne hinv hdense (Or.inl hroom)
  · by_cases hc0 : count = 0
    · exact appendVectorGo_spec B ts src hts htsB (count + 2) count tree offset s (by omega)
        hne hinv hdense (Or.inr hc0)
    · have hpos : 1 ≤ tree.length := List.length_pos.mpr hne
      have htree := dropLast_append_getLastD tree (ColumnSegment.fresh 0) hne
      set seg := tree.getLastD (ColumnSegment.fresh 0) with hsegdef
      have hdiv0 : (B - seg.offset) / ts = 0 := Nat.div_eq_of_lt (by omega)
      have h2 : count + 2 = count + 1 + 1 := by omega
      have hstep : appendVectorGo B ts src (count + 2) tree offset count =
          appendVectorGo B ts src (count + 1)
            (tree ++ [ColumnSegment.fresh (seg.start + seg.count)]) offset count := by
        rw [h2, appendVectorGo_succ]
        simp only [← hsegdef, hdiv0, Nat.zero_min, gt_iff_lt, Nat.lt_irrefl, if_false]
        rw [htree, if_pos (by omega : 0 < count)]
        simp
      rw [hstep]
      set fresh := ColumnSegment.fresh (seg.start + seg.count) with hfreshdef
      set newTree := tree ++ [fresh] with hnewdef
      have hinvN : segInvariant ts B newTree = true := by
        rw [hnewdef, segInvariant_append, hinv]
        simp [segInvariant, hfreshdef, ColumnSegment.fresh]
      have hlast : seg.start + seg.count = s + totalSegCount tree :=
        segDense_last tree s (ColumnSegment.fresh 0) hne hdense
      have hdenseN : segDense s newTree = true := by
        rw [hnewdef, segDense_append, hdense]
        simp [segDense, beq_iff_eq, hfreshdef, ColumnSegment.fresh, hlast]
      have hroomN : ts ≤ B - (newTree.getLastD (ColumnSegment.fresh 0)).offset ∨
          count = 0 := by
        left
        rw [hnewdef, List.getLastD_concat]
        simpa [hfreshdef, ColumnSegment.fresh] using htsB
      obtain ⟨iA, iDen, iTot, iTake, iStart, iCnt⟩ :=
        appendVectorGo_spec B ts src hts htsB (count + 1) count newTree offset s (by omega)
          (by simp [hnewdef]) hinvN hdenseN hroomN
      set out := appendVectorGo B ts src (count + 1) newTree offset count with houtdef
      have hlenN : newTree.length - 1 = tree.length := by
        rw [hnewdef]; simp
      have htakeMid : out.take tree.length = tree := by
        have hx := iTake
        rw [hlenN] at hx
        rw [hx, hnewdef]
        exact List.take_left tree [fresh]
      refine ⟨iA, iDen, ?_, ?_, ?_, ?_⟩
      · rw [iTot, hnewdef]
        simp [totalSegCount, hfreshdef, ColumnSegment.fresh]
      · have h1 : out.take (tree.length - 1) =
            (out.take tree.length).take (tree.length - 1) := by
          rw [List.take_take]
          congr 1
          omega
        rw [h1, htakeMid]
      · have hgd : out.getD (tree.length - 1) (ColumnSegment.fresh 0) = seg := by
          rw [getD_of_take_eq out tree tree.length (tree.length - 1) (ColumnSegment.fresh 0)
            htakeMid (by omega)]
          exact getD_last tree _ hne
        rw [hgd]
      · have hgd : out.getD (tree.length - 1) (ColumnSegment.fresh 0) = seg := by
          rw [getD_of_take_eq out tree tree.length (tree.length - 1) (ColumnSegment.fresh 0)
            htakeMid (by omega)]
          exact getD_last tree _ hne
        rw [hgd, hdiv0]
        simp

/-- Witness for C5: appending three values to a one-segment column with room
for two (block size 8, 4-byte values, one value already stored) fills the
tail to two values and spills one value into a fresh dense segment. -/
theorem appendVector_invariants_witness :
    segInvariant 4 8 (DataTable.AppendVector 8 4 [⟨0, 1, 4, [some 9]⟩]
      [some 1, some 2, some 3] 0 3) = true ∧
    segDense 0 (DataTable.AppendVector 8 4 [⟨0, 1, 4, [some 9]⟩]
      [some 1, some 2, some 3] 0 3) = true ∧
    totalSegCount (DataTable.AppendVector 8 4 [⟨0, 1, 4, [some 9]⟩]
      [some 1, some 2, some 3] 0 3) = totalSegCount [⟨0, 1, 4, [some 9]⟩] + 3 ∧
    (DataTable.AppendVector 8 4 [⟨0, 1, 4, [some 9]⟩]
      [some 1, some 2, some 3] 0 3).take 0 = ([⟨0, 1, 4, [some 9]⟩] : List ColumnSegment).take 0 ∧
    ((DataTable.AppendVector 8 4 [⟨0, 1, 4, [some 9]⟩]
      [some 1, some 2, some 3] 0 3).getD 0 (ColumnSegment.fresh 0)).start =
      (([⟨0, 1, 4, [some 9]⟩] : List ColumnSegment).getLastD (ColumnSegment.fresh 0)).start ∧
    ((DataTable.AppendVector 8 4 [⟨0, 1, 4, [some 9]⟩]
      [some 1, some 2, some 3] 0 3).getD 0 (ColumnSegment.fresh 0)).count =
      (([⟨0, 1, 4, [some 9]⟩] : List ColumnSegment).getLastD (ColumnSegment.fresh 0)).count +
        min ((8 - (([⟨0, 1, 4, [some 9]⟩] : List ColumnSegment).getLastD
          (ColumnSegment.fresh 0)).offset) / 4) 3 :=
  appendVector_invariants 8 4 [⟨0, 1, 4, [some 9]⟩] [some 1, some 2, some 3] 0 3 0
    (by decide) (by decide) (by decide) (by decide) (by decide)

/-! ## Append row-id allocation (C3) -/

/-- Density of the row-wise chunk tree from a base row id: each chunk starts
at the running total, so chunk row-id ranges tile the space with no
overlap. -/
def chunksDense : Nat → List VersionChunkM → Bool
  | _, [] => true
  | s0, c :: rest => c.start == s0 && chunksDense (c.start + c.count) rest

/-- Total number of rows across all version chunks. -/
def totalRows (chunks : List VersionChunkM) : Nat :=
  (chunks.map (fun c => c.count)).sum

theorem chunksDense_append : ∀ (l1 : List VersionChunkM) (s : Nat) (l2 : List VersionChunkM),
    chunksDense s (l1 ++ l2) = (chunksDense s l1 && chunksDense (s + totalRows l1) l2) := by
  intro l1
  induction l1 with
  | nil => intro s l2; simp [chunksDense, totalRows]
  | cons c rest ih =>
    intro s l2
    by_cases h : c.start = s
    · simp [chunksDense, h, ih, totalRows, Nat.add_assoc]
    · have hb : (c.start == s) = false := beq_eq_false_iff_ne.mpr h
      simp [chunksDense, hb]

theorem chunksDense_last (l : List VersionChunkM) (s : Nat) (d : VersionChunkM)
    (h : l ≠ []) (hd : chunksDense s l = true) :
    (l.getLastD d).start + (l.getLastD d).count = s + totalRows l := by
  induction l using List.reverseRecOn with
  | nil => exact absurd rfl h
  | append_singleton l' x _ =>
    rw [chunksDense_append] at hd
    simp only [Bool.and_eq_true] at hd
    obtain ⟨h1, h2⟩ := hd
    simp only [chunksDense, Bool.and_true] at h2
    have hx : x.start = s + totalRows l' := beq_iff_eq.mp h2
    simp [List.getLastD_eq_getLast?, List.getLast?_concat, totalRows, hx]
    omega

theorem getLast?_eq_getLastD {α : Type} (l : List α) (d : α) (h : l ≠ []) :
    l.getLast? = some (l.getLastD d) := by
  induction l using List.reverseRecOn with
  | nil => exact absurd rfl h
  | append_singleton l' x _ =>
    simp [List.getLast?_concat, List.getLastD_concat]

theorem appendLoopGo_succ (CAP B : Nat) (typeSizes : List Nat) (txnId : Nat)
    (cols : List (List (Option Int))) (f : Nat) (prev : List VersionChunkM)
    (last : VersionChunkM) (segs : List (List ColumnSegment)) (undo : List UndoEntry)
    (offset remainder : Nat) :
    appendLoopGo CAP B typeSizes txnId cols (f + 1) prev last segs undo offset remainder =
      (if remainder = 0 then (prev ++ [last], segs, undo)
       else
        let to_copy := min (CAP - last.count) remainder
        let next :=
          if to_copy > 0 then
            let pushed := last.PushDeletedEntries undo txnId to_copy
            let segsN := (List.range segs.length).map (fun i =>
              DataTable.AppendVector B (typeSizes.getD i 1) (segs.getD i [])
                (cols.getD i []) offset to_copy)
            ({ pushed.1 with count := pushed.1.count + to_copy }, segsN, pushed.2)
          else (last, segs, undo)
        let offset' := offset + to_copy
        let remainder' := remainder - to_copy
        if remainder' > 0 then
          appendLoopGo CAP B typeSizes txnId cols f (prev ++ [next.1])
            (DataTable.AppendVersionChunk (next.1.start + next.1.count))
            next.2.1 next.2.2 offset' remainder'
        else (prev ++ [next.1], next.2.1, next.2.2)) := by
  rfl

theorem prefix_glue (out prev : List VersionChunkM) (c : VersionChunkM)
    (htake : out.take (prev.length + 1) = prev ++ [c]) :
    out.take prev.length = prev ∧
    out.getD prev.length (DataTable.AppendVersionChunk 0) = c := by
  constructor
  · have h1 := List.take_take prev.length (prev.length + 1) out
    rw [htake] at h1
    rw [show prev.length ⊓ (prev.length + 1) = prev.length by omega] at h1
    rw [← h1]
    exact List.take_left prev [c]
  · rw [getD_of_take_eq out (prev ++ [c]) (prev.length + 1) prev.length _ htake (by omega),
      getD_append_length]

theorem appendLoopGo_spec (CAP B : Nat) (typeSizes : List Nat) (txnId : Nat)
    (cols : List (List (Option Int))) (hCAP : 0 < CAP) :
    ∀ (fuel remainder : Nat) (prev : List VersionChunkM) (last : VersionChunkM)
      (segs : List (List ColumnSegment)) (undo : List UndoEntry) (offset s : Nat),
      remainder + 1 ≤ fuel →
      (last.count < CAP ∨ remainder = 0) →
      chunksDense s (prev ++ [last]) = true →
      (∀ c ∈ prev ++ [last], c.count ≤ CAP) →
      chunksDense s
        (appendLoopGo CAP B typeSizes txnId cols fuel prev last segs undo offset remainder).1 =
        true ∧
      totalRows
        (appendLoopGo CAP B typeSizes txnId cols fuel prev last segs undo offset remainder).1 =
        totalRows (prev ++ [last]) + remainder ∧
      (∀ c ∈ (appendLoopGo CAP B typeSizes txnId cols fuel prev last segs undo
        offset remainder).1, c.count ≤ CAP) ∧
      (appendLoopGo CAP B typeSizes txnId cols fuel prev last segs undo
        offset remainder).1.take prev.length = prev ∧
      ((appendLoopGo CAP B typeSizes txnId cols fuel prev last segs undo
        offset remainder).1.getD prev.length (DataTable.AppendVersionChunk 0)).start =
        last.start ∧
      ((appendLoopGo CAP B typeSizes txnId cols fuel prev last segs undo
        offset remainder).1.getD prev.length (DataTable.AppendVersionChunk 0)).count =
        last.count + min (CAP - last.count) remainder := by
  intro fuel
  induction fuel with
  | zero => intro remainder _ _ _ _ _ _ hfuel _ _ _; exact absurd hfuel (by omega)
  | succ f ih =>
    intro remainder prev last segs undo offset s hfuel hspace hdense hbound
    by_cases hr0 : remainder = 0
    · subst hr0
      rw [appendLoopGo_succ, if_pos rfl]
      refine ⟨hdense, by simp, hbound, ?_, ?_, ?_⟩
      · exact List.take_left prev [last]
      · rw [getD_append_length]
      · rw [getD_append_length]; simp
    · have hlt : last.count < CAP := hspace.resolve_right hr0
      rw [appendLoopGo_succ, if_neg hr0]
      simp only []
      set tc := min (CAP - last.count) remainder with htcdef
      have htc1 : 1 ≤ tc := le_min (by omega) (by omega)
      have htcle : tc ≤ CAP - last.count := min_le_left _ _
      have htcler : tc ≤ remainder := min_le_right _ _
      rw [if_pos (by omega : tc > 0)]
      set last₁ : VersionChunkM :=
        { (last.PushDeletedEntries undo txnId tc).1 with
          count := (last.PushDeletedEntries undo txnId tc).1.count + tc } with hlast₁def
      have hstart₁ : last₁.start = last.start := rfl
      have hcount₁ : last₁.count = last.count + tc := rfl
      have hpc : (last.PushDeletedEntries undo txnId tc).1.count = last.count := rfl
      have hdenseP : chunksDense s prev = true ∧ last.start = s + totalRows prev := by
        have hx := hdense
        rw [chunksDense_append] at hx
        simp only [Bool.and_eq_true] at hx
        refine ⟨hx.1, ?_⟩
        have h2 := hx.2
        simp only [chunksDense, Bool.and_true] at h2
        exact beq_iff_eq.mp h2
      have hdense₁ : chunksDense s (prev ++ [last₁]) = true := by
        rw [chunksDense_append, hdenseP.1, Bool.true_and]
        show (last₁.start == s + totalRows prev) &&
          chunksDense (last₁.start + last₁.count) [] = true
        have hb : (last₁.start == s + totalRows prev) = true :=
          beq_iff_eq.mpr (by rw [hstart₁, hdenseP.2])
        rw [hb]
        simp [chunksDense]
      have hbound₁ : ∀ c ∈ prev ++ [last₁], c.count ≤ CAP := by
        intro c hc
        rcases List.mem_append.mp hc with hc | hc
        · exact hbound c (List.mem_append_left _ hc)
        · rcases List.mem_singleton.mp hc with rfl
          rw [hcount₁]; omega
      by_cases hrem' : remainder - tc > 0
      · rw [if_pos hrem']
        set freshC := DataTable.AppendVersionChunk (last₁.start + last₁.count) with hfreshdef
        have hfstart : freshC.start = last₁.start + last₁.count := rfl
        have hfcount : freshC.count = 0 := rfl
        have hdenseN : chunksDense s ((prev ++ [last₁]) ++ [freshC]) = true := by
          rw [chunksDense_append, hdense₁, Bool.true_and]
          show (freshC.start == s + totalRows (prev ++ [last₁])) &&
            chunksDense (freshC.start + freshC.count) [] = true
          have htr : totalRows (prev ++ [last₁]) = totalRows prev + last₁.count := by
            simp [totalRows]
          have hb : (freshC.start == s + totalRows (prev ++ [last₁])) = true := by
            refine beq_iff_eq.mpr ?_
            rw [hfstart, htr, hstart₁, hcount₁, hdenseP.2]
            omega
          rw [hb]
          simp [chunksDense]
        have hboundN : ∀ c ∈ (prev ++ [last₁]) ++ [freshC], c.count ≤ CAP := by
          intro c hc
          rcases List.mem_append.mp hc with hc | hc
          · exact hbound₁ c hc
          · rcases List.mem_singleton.mp hc with rfl
            rw [hfcount]; omega
        obtain ⟨iDen, iTot, iBound, iTake, iStart, iCnt⟩ :=
          ih (remainder - tc) (prev ++ [last₁]) freshC _ _ (offset + tc) s
            (by omega) (Or.inl (by rw [hfcount]; omega)) hdenseN hboundN
        rw [show (prev ++ [last₁]).length = prev.length + 1 by simp] at iTake
        obtain ⟨hTk, hGd⟩ := prefix_glue _ prev last₁ iTake
        refine ⟨iDen, ?_, iBound, hTk, ?_, ?_⟩
        · rw [iTot]
          have h1 : totalRows ((prev ++ [last₁]) ++ [freshC]) =
              totalRows prev + (last.count + tc) := by
            simp [totalRows, hcount₁, hpc, hfcount]
          have h2 : totalRows (prev ++ [last]) = totalRows prev + last.count := by
            simp [totalRows]
          omega
        · rw [hGd, hstart₁]
        · rw [hGd, hcount₁]
      · rw [if_neg hrem']
        have htceq : tc = remainder := by omega
        refine ⟨?_, ?_, ?_, ?_, ?_, ?_⟩
        · show chunksDense s (prev ++ [last₁]) = true
          exact hdense₁
        · show totalRows (prev ++ [last₁]) = totalRows (prev ++ [last]) + remainder
          have h1 : totalRows (prev ++ [last₁]) = totalRows prev + (last.count + tc) := by
            simp [totalRows, hcount₁, hpc]
          have h2 : totalRows (prev ++ [last]) = totalRows prev + last.count := by
            simp [totalRows]
          omega
        · show ∀ c ∈ prev ++ [last₁], c.count ≤ CAP
          exact hbound₁
        · show (prev ++ [last₁]).take prev.length = prev
          exact List.take_left prev [last₁]
        · show ((prev ++ [last₁]).getD prev.length (DataTable.AppendVersionChunk 0)).start =
            last.start
          rw [getD_append_length, hstart₁]
        · show ((prev ++ [last₁]).getD prev.length (DataTable.AppendVersionChunk 0)).count =
            last.count + tc
          rw [getD_append_length, hcount₁]

theorem appendToIndexes_none (indexes : List IndexM) (chunk : DataChunkM) (rs : Nat)
    (h : ∀ ix ∈ indexes, ix.appendOk = true) :
    (DataTable.AppendToIndexes indexes chunk rs).2 = none := by
  cases indexes with
  | nil => rfl
  | cons i0 it =>
    have hloop := appendIndexLoop_all_ok chunk (GenerateSequence rs chunk.size) (i0 :: it) 0 h
    simp [DataTable.AppendToIndexes, hloop]

/-- C3: a non-empty Append of N rows allocates the new row ids directly
after the current tail — `row_start = tail.start + tail.count`, which
equals the table's total row count under density — copies exactly
`min(STORAGE_CHUNK_SIZE − tail.count, N)` rows into the tail chunk,
allocates every fresh VersionChunk at the previous chunk's
`start + count`, keeps every chunk at or below STORAGE_CHUNK_SIZE, grows
the total row count by exactly N, keeps the row-id space dense with no
overlap, and leaves all earlier chunks untouched. -/
theorem append_row_ids (tinfo : TableInfo) (B CAP : Nat) (indexes : List IndexM)
    (txnId : Nat) (st : TableState) (chunk : DataChunkM)
    (hCAP : 0 < CAP) (hne : st.chunks ≠ [])
    (hdense : chunksDense 0 st.chunks = true)
    (hbound : ∀ c ∈ st.chunks, c.count ≤ CAP)
    (hsz : chunk.size ≠ 0)
    (hcols : chunk.columns.length = tinfo.typeSizes.length)
    (hver : VerifyAppendConstraints tinfo.name tinfo.constraints chunk = .ok ())
    (hidx : ∀ ix ∈ indexes, ix.appendOk = true) :
    ∃ st', DataTable.Append tinfo B CAP indexes txnId st chunk = .ok st' ∧
      chunksDense 0 st'.chunks = true ∧
      totalRows st'.chunks = totalRows st.chunks + chunk.size ∧
      (∀ c ∈ st'.chunks, c.count ≤ CAP) ∧
      st'.chunks.take (st.chunks.length - 1) = st.chunks.take (st.chunks.length - 1) ∧
      (st'.chunks.getD (st.chunks.length - 1) (DataTable.AppendVersionChunk 0)).start =
        (st.chunks.getLastD (DataTable.AppendVersionChunk 0)).start ∧
      (st'.chunks.getD (st.chunks.length - 1) (DataTable.AppendVersionChunk 0)).count =
        (st.chunks.getLastD (DataTable.AppendVersionChunk 0)).count +
          min (CAP - (st.chunks.getLastD (DataTable.AppendVersionChunk 0)).count)
            chunk.size ∧
      (st.chunks.getLastD (DataTable.AppendVersionChunk 0)).start +
        (st.chunks.getLastD (DataTable.AppendVersionChunk 0)).count =
        totalRows st.chunks := by
  set tail := st.chunks.getLastD (DataTable.AppendVersionChunk 0) with htaildef
  have hlastq : st.chunks.getLast? = some tail := getLast?_eq_getLastD st.chunks _ hne
  have hia := appendToIndexes_none indexes chunk (tail.start + tail.count) hidx
  have htree := dropLast_append_getLastD st.chunks (DataTable.AppendVersionChunk 0) hne
  have hlenD : st.chunks.dropLast.length = st.chunks.length - 1 := List.length_dropLast _
  have hpos : 1 ≤ st.chunks.length := List.length_pos.mpr hne
  have hlast_total : tail.start + tail.count = totalRows st.chunks := by
    rw [htaildef]
    have := chunksDense_last st.chunks 0 (DataTable.AppendVersionChunk 0) hne hdense
    omega
  have hdenseDT : chunksDense 0 (st.chunks.dropLast ++ [tail]) = true := by
    rw [htree]; exact hdense
  have hboundDT : ∀ c ∈ st.chunks.dropLast ++ [tail], c.count ≤ CAP := by
    rw [htree]; exact hbound
  unfold DataTable.Append
  rw [if_neg hsz, if_neg (by simp [hcols]), hver]
  simp only []
  rw [hlastq]
  simp only []
  rw [hia]
  simp only []
  by_cases hspace : tail.count < CAP
  · obtain ⟨iDen, iTot, iBound, iTake, iStart, iCnt⟩ :=
      appendLoopGo_spec CAP B tinfo.typeSizes txnId chunk.columns hCAP (chunk.size + 2)
        chunk.size st.chunks.dropLast tail st.segments st.undo 0 0 (by omega)
        (Or.inl hspace) hdenseDT hboundDT
    refine ⟨_, rfl, iDen, ?_, iBound, ?_, ?_, ?_, hlast_total⟩
    · rw [iTot, htree]
    · rw [← hlenD, iTake, hlenD]
      exact List.dropLast_eq_take st.chunks
    · rw [← hlenD]
      exact iStart
    · rw [← hlenD]
      exact iCnt
  · have hfull : tail.count = CAP :=
      le_antisymm (hbound tail (getLastD_mem st.chunks _ hne)) (not_lt.mp hspace)
    have hsz2 : chunk.size + 2 = chunk.size + 1 + 1 := by omega
    have hstep : appendLoopGo CAP B tinfo.typeSizes txnId chunk.columns (chunk.size + 2)
        st.chunks.dropLast tail st.segments st.undo 0 chunk.size =
        appendLoopGo CAP B tinfo.typeSizes txnId chunk.columns (chunk.size + 1)
          st.chunks (DataTable.AppendVersionChunk (tail.start + tail.count))
          st.segments st.undo 0 chunk.size := by
      rw [hsz2, appendLoopGo_succ, if_neg hsz]
      simp only [hfull, Nat.sub_self, Nat.zero_min, gt_iff_lt, Nat.lt_irrefl, if_false]
      rw [if_pos (by omega : chunk.size - 0 > 0)]
      simp only [Nat.add_zero, Nat.sub_zero, htree]
    rw [hstep]
    set freshC := DataTable.AppendVersionChunk (tail.start + tail.count) with hfreshdef
    have hfstart : freshC.start = tail.start + tail.count := rfl
    have hfcount : freshC.count = 0 := rfl
    have hdenseN : chunksDense 0 (st.chunks ++ [freshC]) = true := by
      rw [chunksDense_append, hdense, Bool.true_and]
      show (freshC.start == 0 + totalRows st.chunks) &&
        chunksDense (freshC.start + freshC.count) [] = true
      have hb : (freshC.start == 0 + totalRows st.chunks) = true := by
        refine beq_iff_eq.mpr ?_
        rw [hfstart, hlast_total]
        omega
      rw [hb]
      simp [chunksDense]
    have hboundN : ∀ c ∈ st.chunks ++ [freshC], c.count ≤ CAP := by
      intro c hc
      rcases List.mem_append.mp hc with hc | hc
      · exact hbound c hc
      · rcases List.mem_singleton.mp hc with rfl
        rw [hfcount]; omega
    obtain ⟨iDen, iTot, iBound, iTake, iStart, iCnt⟩ :=
      appendLoopGo_spec CAP B tinfo.typeSizes txnId chunk.columns hCAP (chunk.size + 1)
        chunk.size st.chunks freshC st.segments st.undo 0 0 (by omega)
        (Or.inl (by rw [hfcount]; omega)) hdenseN hboundN
    refine ⟨_, rfl, iDen, ?_, iBound, ?_, ?_, ?_, hlast_total⟩
    · rw [iTot]
      have h2 : totalRows (st.chunks ++ [freshC]) = totalRows st.chunks := by
        simp [totalRows, hfcount]
      rw [h2]
    · have h1 : (appendLoopGo CAP B tinfo.typeSizes txnId chunk.columns (chunk.size + 1)
          st.chunks freshC st.segments st.undo 0 chunk.size).1.take
            (st.chunks.length - 1) =
          ((appendLoopGo CAP B tinfo.typeSizes txnId chunk.columns (chunk.size + 1)
            st.chunks freshC st.segments st.undo 0 chunk.size).1.take
              st.chunks.length).take (st.chunks.length - 1) := by
        rw [List.take_take]
        congr 1
        omega
      rw [h1, iTake]
    · rw [getD_of_take_eq _ st.chunks st.chunks.length (st.chunks.length - 1) _ iTake
        (by omega), getD_last st.chunks _ hne, ← htaildef]
    · rw [getD_of_take_eq _ st.chunks st.chunks.length (st.chunks.length - 1) _ iTake
        (by omega), getD_last st.chunks _ hne, ← htaildef, hfull]
      simp

/-- Witness for C3: appending five rows to a table whose tail chunk holds
one of three possible rows (chunk capacity 3) fills the tail to three rows
and spills into a fresh chunk starting at row 3, keeping the row-id space
dense and growing the total from 1 to 6. -/
theorem append_row_ids_witness :
    DataTable.Append ⟨"t", [4], []⟩ 16 3 [] 1
        ⟨[⟨0, 1, [some ⟨5⟩], [false]⟩], [[⟨0, 1, 4, [some 7]⟩]],
         [⟨false, none, none⟩], []⟩
        ⟨[[some 1, some 2, some 3, some 4, some 5]], 5⟩ =
      .ok ⟨[⟨0, 3, [some ⟨5⟩, some ⟨1⟩, some ⟨1⟩], [false]⟩,
            ⟨3, 3, [some ⟨1⟩, some ⟨1⟩, some ⟨1⟩], []⟩],
           [[⟨0, 4, 16, [some 7, some 1, some 2, some 3]⟩, ⟨4, 2, 8, [some 4, some 5]⟩]],
           [⟨false, some 1, some 5⟩],
           [⟨.INSERT_TUPLE, 0, 1⟩, ⟨.INSERT_TUPLE, 0, 2⟩, ⟨.INSERT_TUPLE, 3, 0⟩,
            ⟨.INSERT_TUPLE, 3, 1⟩, ⟨.INSERT_TUPLE, 3, 2⟩]⟩ ∧
    chunksDense 0 [⟨0, 3, [some ⟨5⟩, some ⟨1⟩, some ⟨1⟩], [false]⟩,
      ⟨3, 3, [some ⟨1⟩, some ⟨1⟩, some ⟨1⟩], []⟩] = true ∧
    totalRows [⟨0, 3, [some ⟨5⟩, some ⟨1⟩, some ⟨1⟩], [false]⟩,
      ⟨3, 3, [some ⟨1⟩, some ⟨1⟩, some ⟨1⟩], []⟩] =
      totalRows [⟨0, 1, [some ⟨5⟩], [false]⟩] + 5 := by
  obtain ⟨st', heq, hden, htot, _⟩ :=
    append_row_ids ⟨"t", [4], []⟩ 16 3 [] 1
      ⟨[⟨0, 1, [some ⟨5⟩], [false]⟩], [[⟨0, 1, 4, [some 7]⟩]],
       [⟨false, none, none⟩], []⟩
      ⟨[[some 1, some 2, some 3, some 4, some 5]], 5⟩
      (by decide) (by decide) (by decide) (by decide) (by decide) rfl rfl (by decide)
  have h2 : DataTable.Append ⟨"t", [4], []⟩ 16 3 [] 1
      ⟨[⟨0, 1, [some ⟨5⟩], [false]⟩], [[⟨0, 1, 4, [some 7]⟩]],
       [⟨false, none, none⟩], []⟩
      ⟨[[some 1, some 2, some 3, some 4, some 5]], 5⟩ =
      .ok ⟨[⟨0, 3, [some ⟨5⟩, some ⟨1⟩, some ⟨1⟩], [false]⟩,
            ⟨3, 3, [some ⟨1⟩, some ⟨1⟩, some ⟨1⟩], []⟩],
           [[⟨0, 4, 16, [some 7, some 1, some 2, some 3]⟩, ⟨4, 2, 8, [some 4, some 5]⟩]],
           [⟨false, some 1, some 5⟩],
           [⟨.INSERT_TUPLE, 0, 1⟩, ⟨.INSERT_TUPLE, 0, 2⟩, ⟨.INSERT_TUPLE, 3, 0⟩,
            ⟨.INSERT_TUPLE, 3, 1⟩, ⟨.INSERT_TUPLE, 3, 2⟩]⟩ := by rfl
  rw [h2] at heq
  have hst : _ = st' := Except.ok.inj heq
  rw [← hst] at hden htot
  exact ⟨h2, hden, htot⟩

/-! ## Scan driver (C9) -/

/-- The stride values the scan driver observes while consuming one chunk
from the given sub-offset: the remaining strides, or a single empty
observation when the chunk has none left (an empty chunk is still visited
once before the cursor moves on). -/
def chunkVisits (c : ScanChunkModel) (offset : Nat) : List Nat :=
  if c.strides.drop offset = [] then [0] else c.strides.drop offset

/-- The stride values the scan driver would observe from the current cursor
position through the captured last chunk. -/
def visitList : List ScanChunkModel → Nat → List Nat
  | [], _ => []
  | c :: rest, offset =>
    chunkVisits c offset ++ (rest.map (fun c => chunkVisits c 0)).flatten

theorem chunkVisits_ne_nil (c : ScanChunkModel) (o : Nat) : chunkVisits c o ≠ [] := by
  unfold chunkVisits
  by_cases h : c.strides.drop o = [] <;> simp [h]

theorem visitList_zero (l : List ScanChunkModel) :
    visitList l 0 = (l.map (fun c => chunkVisits c 0)).flatten := by
  cases l with
  | nil => rfl
  | cons c r => simp [visitList]

theorem visitList_ne_nil (l : List ScanChunkModel) (o : Nat) (h : l ≠ []) :
    visitList l o ≠ [] := by
  cases l with
  | nil => exact absurd rfl h
  | cons c r =>
    simp only [visitList]
    intro hx
    rcases List.append_eq_nil.mp hx with ⟨h1, _⟩
    exact chunkVisits_ne_nil c o h1

theorem chunkVisits_of_lt (c : ScanChunkModel) (o : Nat) (h : o < c.strides.length) :
    chunkVisits c o = c.strides.drop o := by
  unfold chunkVisits
  have hd : c.strides.drop o ≠ [] := by
    intro hx
    have := congrArg List.length hx
    simp [List.length_drop] at this
    omega
  rw [if_neg hd]

theorem getD_eq_getElem {α : Type} (l : List α) (n : Nat) (d : α) (h : n < l.length) :
    l.getD n d = l[n] := by
  rw [List.getD_eq_getElem?_getD]
  simp [List.getElem?_eq_getElem h]

theorem chunkVisits_last (c : ScanChunkModel) (o : Nat) (h : c.strides.length ≤ o + 1) :
    chunkVisits c o = [c.strides.getD o 0] := by
  by_cases hlt : o < c.strides.length
  · rw [chunkVisits_of_lt c o hlt, List.drop_eq_getElem_cons hlt,
      List.drop_eq_nil_of_le (by omega), getD_eq_getElem c.strides o 0 hlt]
  · push_neg at hlt
    unfold chunkVisits
    rw [if_pos (List.drop_eq_nil_of_le hlt), List.getD_eq_default _ _ hlt]

theorem chunkVisits_cons_of_lt (c : ScanChunkModel) (o : Nat)
    (h : o + 1 < c.strides.length) :
    chunkVisits c o = c.strides.getD o 0 :: c.strides.drop (o + 1) := by
  rw [chunkVisits_of_lt c o (by omega), List.drop_eq_getElem_cons (by omega : o < _),
    getD_eq_getElem c.strides o 0 (by omega)]

theorem scanLoop_spec : ∀ (l : List ScanChunkModel) (o : Nat), l ≠ [] →
    (scanLoop l o).1 = ((visitList l o).dropWhile (fun n => n == 0)).headD 0 ∧
    ((scanLoop l o).2.1 = [] ↔
      ((visitList l o).dropWhile (fun n => n == 0)).length ≤ 1) := by
  intro l o
  induction l, o using scanLoop.induct with
  | case1 offset => intro h; exact absurd rfl h
  | case2 current offset hlast =>
    intro _
    have hs : scanLoop [current] offset = (current.strides.getD offset 0, [], offset) := by
      simp [scanLoop, hlast]
    have hv : visitList [current] offset = [current.strides.getD offset 0] := by
      simp [visitList, chunkVisits_last current offset hlast]
    rw [hs, hv]
    generalize current.strides.getD offset 0 = r
    by_cases hr : r = 0 <;> simp [hr]
  | case3 current rest offset rows hlast hrest hrows =>
    intro _
    have hrows' : current.strides.getD offset 0 > 0 := hrows
    have hne0 : current.strides[offset]?.getD 0 ≠ 0 := by
      rw [← List.getD_eq_getElem?_getD]
      omega
    have hs : scanLoop (current :: rest) offset =
        (current.strides.getD offset 0, rest, 0) := by
      simp [scanLoop, hlast, hrest, hrows', hne0]
    have hv : visitList (current :: rest) offset = current.strides.getD offset 0 ::
        (rest.map (fun c => chunkVisits c 0)).flatten := by
      simp [visitList, chunkVisits_last current offset hlast]
    have hbne : (rest.map (fun c => chunkVisits c 0)).flatten ≠ [] := by
      rw [← visitList_zero]
      exact visitList_ne_nil rest 0 hrest
    rw [hs, hv]
    generalize current.strides.getD offset 0 = r at hrows' ⊢
    have hb : (r == 0) = false := beq_eq_false_iff_ne.mpr (by omega)
    constructor
    · simp [List.dropWhile_cons, hb]
    · simp only [List.dropWhile_cons, hb, Bool.false_eq_true, if_false]
      constructor
      · intro hx
        exact absurd hx hrest
      · intro hx
        exfalso
        have h1 : 1 ≤ (rest.map (fun c => chunkVisits c 0)).flatten.length :=
          List.length_pos.mpr hbne
        rw [List.length_cons] at hx
        omega
  | case4 current rest offset rows hlast hrest hnrows ih =>
    intro _
    have h0 : ¬ current.strides.getD offset 0 > 0 := hnrows
    have hrows0 : current.strides.getD offset 0 = 0 := by omega
    have hE0 : current.strides[offset]?.getD 0 = 0 := by
      rw [← List.getD_eq_getElem?_getD]
      exact hrows0
    have hs : scanLoop (current :: rest) offset = scanLoop rest 0 := by
      simp [scanLoop, hlast, hrest, hE0]
    have hv : visitList (current :: rest) offset =
        0 :: (rest.map (fun c => chunkVisits c 0)).flatten := by
      simp [visitList, chunkVisits_last current offset hlast, hE0]
    obtain ⟨ih1, ih2⟩ := ih hrest
    rw [hs, hv]
    rw [visitList_zero] at ih1 ih2
    constructor
    · simpa [List.dropWhile_cons] using ih1
    · simpa [List.dropWhile_cons] using ih2
  | case5 current rest offset rows hnlast hrows =>
    intro _
    have hrows' : current.strides.getD offset 0 > 0 := hrows
    have hlen : offset + 1 < current.strides.length := by omega
    have hne0 : current.strides[offset]?.getD 0 ≠ 0 := by
      rw [← List.getD_eq_getElem?_getD]
      omega
    have hs : scanLoop (current :: rest) offset =
        (current.strides.getD offset 0, current :: rest, offset + 1) := by
      conv_lhs => rw [scanLoop.eq_def]
      simp only []
      rw [dif_neg hnlast, if_pos hrows']
    have hv : visitList (current :: rest) offset = current.strides.getD offset 0 ::
        (current.strides.drop (offset + 1) ++
          (rest.map (fun c => chunkVisits c 0)).flatten) := by
      simp [visitList, chunkVisits_cons_of_lt current offset hlen]
    have hdne : 1 ≤ (current.strides.drop (offset + 1)).length := by
      simp [List.length_drop]
      omega
    rw [hs, hv]
    generalize current.strides.getD offset 0 = r at hrows' ⊢
    have hb : (r == 0) = false := beq_eq_false_iff_ne.mpr (by omega)
    constructor
    · simp [List.dropWhile_cons, hb]
    · simp only [List.dropWhile_cons, hb, Bool.false_eq_true, if_false]
      constructor
      · intro hx
        exact absurd hx (by simp)
      · intro hx
        exfalso
        rw [List.length_cons, List.length_append] at hx
        omega
  | case6 current rest offset rows hnlast hnrows ih =>
    intro _
    have h0 : ¬ current.strides.getD offset 0 > 0 := hnrows
    have hrows0 : current.strides.getD offset 0 = 0 := by omega
    have hE0 : current.strides[offset]?.getD 0 = 0 := by
      rw [← List.getD_eq_getElem?_getD]
      exact hrows0
    have hlen : offset + 1 < current.strides.length := by omega
    have hs : scanLoop (current :: rest) offset =
        scanLoop (current :: rest) (offset + 1) := by
      conv_lhs => rw [scanLoop.eq_def]
      simp only []
      rw [dif_neg hnlast, if_neg (by omega : ¬ current.strides.getD offset 0 > 0)]
    have hv : visitList (current :: rest) offset =
        0 :: visitList (current :: rest) (offset + 1) := by
      simp only [visitList]
      rw [chunkVisits_cons_of_lt current offset hlen, hrows0,
        chunkVisits_of_lt current (offset + 1) hlen]
      simp
    obtain ⟨ih1, ih2⟩ := ih (by simp)
    rw [hs, hv]
    constructor
    · simpa [List.dropWhile_cons] using ih1
    · simpa [List.dropWhile_cons] using ih2

theorem chunkVisits_bound (V : Nat) (c : ScanChunkModel) (o : Nat)
    (hb : ∀ n ∈ c.strides, n ≤ V) : ∀ x ∈ chunkVisits c o, x ≤ V := by
  intro x hx
  unfold chunkVisits at hx
  by_cases hd : c.strides.drop o = []
  · rw [if_pos hd] at hx
    rcases List.mem_singleton.mp hx with rfl
    omega
  · rw [if_neg hd] at hx
    exact hb x (List.mem_of_mem_drop hx)

theorem visitList_bound (V : Nat) (l : List ScanChunkModel) (o : Nat)
    (hb : ∀ c ∈ l, ∀ n ∈ c.strides, n ≤ V) : ∀ x ∈ visitList l o, x ≤ V := by
  intro x hx
  cases l with
  | nil => cases hx
  | cons c rest =>
    simp only [visitList] at hx
    rcases List.mem_append.mp hx with hx | hx
    · exact chunkVisits_bound V c o (hb c (by simp)) x hx
    · rcases List.mem_flatten.mp hx with ⟨lx, hlx, hxin⟩
      rcases List.mem_map.mp hlx with ⟨c', hc', rfl⟩
      exact chunkVisits_bound V c' 0 (hb c' (List.mem_cons_of_mem _ hc')) x hxin

/-- C9: each Scan invocation returns at most one filled vector of at most
VECTOR-SIZE rows and returns as soon as the result is non-empty — the
returned row count is the first non-empty stride the driver observes from
the cursor through the captured last chunk (and is bounded by the
per-stride bound); the chunk cursor is cleared to null exactly when the
stride just scanned was the last segment of the captured last chunk, that
is, when every earlier observed stride was empty; and a null cursor makes
Scan return an empty result with the state unchanged. -/
theorem scan_returns_first_nonempty (V : Nat) (state : TableScanState) :
    (state.remaining ≠ [] →
      (DataTable.Scan state).1 =
        ((visitList state.remaining state.offset).dropWhile (fun n => n == 0)).headD 0) ∧
    (state.remaining ≠ [] → (∀ c ∈ state.remaining, ∀ n ∈ c.strides, n ≤ V) →
      (DataTable.Scan state).1 ≤ V) ∧
    (state.remaining ≠ [] →
      ((DataTable.Scan state).2.remaining = [] ↔
        ((visitList state.remaining state.offset).dropWhile
          (fun n => n == 0)).length ≤ 1)) ∧
    (state.remaining = [] → DataTable.Scan state = (0, state)) := by
  refine ⟨fun h => ?_, fun h hb => ?_, fun h => ?_, fun h => ?_⟩
  · exact (scanLoop_spec state.remaining state.offset h).1
  · show (scanLoop state.remaining state.offset).1 ≤ V
    rw [(scanLoop_spec state.remaining state.offset h).1]
    cases hdw : (visitList state.remaining state.offset).dropWhile (fun n => n == 0) with
    | nil => simp
    | cons a t =>
      have ha : a ∈ visitList state.remaining state.offset :=
        (List.dropWhile_sublist (fun n => n == 0)).mem (hdw ▸ List.mem_cons_self a t)
      simpa using visitList_bound V state.remaining state.offset hb a ha
  · exact (scanLoop_spec state.remaining state.offset h).2
  · cases state with
    | mk rem off =>
      simp only at h
      subst h
      simp [DataTable.Scan, scanLoop]

/-- Witness for C9: scanning a two-chunk table whose first chunk's strides
are 0 then 3 returns the vector of 3 rows as soon as it is produced,
moving the cursor to the second chunk; the bound and the termination
characterization hold at this state. -/
theorem scan_returns_first_nonempty_witness :
    (DataTable.Scan ⟨[⟨[0, 3]⟩, ⟨[2]⟩], 0⟩).1 =
      ((visitList [⟨[0, 3]⟩, ⟨[2]⟩] 0).dropWhile (fun n => n == 0)).headD 0 ∧
    (DataTable.Scan ⟨[⟨[0, 3]⟩, ⟨[2]⟩], 0⟩).1 ≤ 3 ∧
    ((DataTable.Scan ⟨[⟨[0, 3]⟩, ⟨[2]⟩], 0⟩).2.remaining = [] ↔
      ((visitList [⟨[0, 3]⟩, ⟨[2]⟩] 0).dropWhile (fun n => n == 0)).length ≤ 1) :=
  ⟨(scan_returns_first_nonempty 3 ⟨[⟨[0, 3]⟩, ⟨[2]⟩], 0⟩).1 (by decide),
   (scan_returns_first_nonempty 3 ⟨[⟨[0, 3]⟩, ⟨[2]⟩], 0⟩).2.1 (by decide) (by decide),
   (scan_returns_first_nonempty 3 ⟨[⟨[0, 3]⟩, ⟨[2]⟩], 0⟩).2.2.1 (by decide)⟩

end DuckDB